import Mathlib

/-!
fzf-log: record construction, sorting, filtering and range resolution

A shallow embedding of `src/fzf-log.go`.  Go `int` values are `Int`, a
`time.Time` is the instant it denotes (an `Int`, so `Before` is `<` and `After`
is `>`), a Go slice is a `List`, and an operation that can panic at run time
(an out-of-range slice expression) returns `Option`, `none` standing for the
panic.  The order in which the goroutines of `GoMap` deliver their results is
not fixed by the program; it is an explicit argument of the embedding.

`sort.Slice` is embedded as the routine the Go library runs, `pdqsort_func`
with its insertion sort, heap sort, partitioning and pivot choice, on the slice
as a list indexed from `0`.  Its pseudo-random generator is an argument of the
embedding (`next`): what is proved of the sort holds for every generator.
-/

namespace FzfLog

/-! ## Data model -/

/-- The struct `LogRecord` of the source (lines 61-66). -/
structure LogRecord where
  Time : Int
  Content : String
  File : String
  Line : Int
deriving DecidableEq, Repr, Inhabited

/-! ## Go primitives used by the program -/

/-- The slice expression `xs[lo:hi]`.  It panics unless `0 ≤ lo ≤ hi ≤ len xs`
(every call site of the program passes `hi ≤ len xs`, so the capacity of the
slice plays no part). -/
def goSlice {α : Type} (xs : List α) (lo hi : Int) : Option (List α) :=
  if 0 ≤ lo ∧ lo ≤ hi ∧ hi ≤ (xs.length : Int) then
    some ((xs.drop lo.toNat).take (hi.toNat - lo.toNat))
  else none

/-- The library call `strings.Join(elems, sep)`. -/
def stringsJoin : List String → String → String
  | [], _ => ""
  | [a], _ => a
  | a :: b :: rest, sep => a ++ sep ++ stringsJoin (b :: rest) sep

/-- Splitting a character sequence at every occurrence of `sep`; the parts
between two adjacent separators, before a leading one and after a trailing one
are empty. -/
def splitChars (sep : Char) : List Char → List (List Char)
  | [] => [[]]
  | c :: cs =>
    if c = sep then [] :: splitChars sep cs
    else
      match splitChars sep cs with
      | [] => [[c]]
      | p :: ps => (c :: p) :: ps

/-- The library call `strings.Split(s, sep)` for a one-character separator. -/
def stringsSplit (s : String) (sep : Char) : List String :=
  (splitChars sep s.data).map String.mk

/-- The generic function `min` of the source (lines 298-303), at type `int`. -/
def min (a b : Int) : Int :=
  if a < b then a else b

/-! ## GoMap and the record builder -/

/-- What the goroutine started by `GoMap` for index `i` sends on the channel:
`f(i, values[i])` (lines 29-31). -/
def GoMap.sent {T U : Type} (values : List U) (f : Int → U → List T) (i : Nat) : List T :=
  match values[i]? with
  | some v => f (i : Int) v
  | none => []

/-- The function `GoMap` (lines 23-43).  One goroutine per element sends
`f i v` on the channel; the receiving loop appends the results in the order they
arrive and stops after `len values` of them.  `arrival` lists the indices in
order of arrival. -/
def GoMap {T U : Type} (arrival : List Nat) (values : List U) (f : Int → U → List T) : List T :=
  if values.length = 0 then []
  else arrival.foldl (fun result i => result ++ GoMap.sent values f i) []

/-- The function `ParseFileToLogRecords` (lines 101-112); `toDate` returns
`none` for Go's `nil`. -/
def ParseFileToLogRecords (arrival : List Nat) (file : String) (lines : List String)
    (toDate : String → Option Int) : List LogRecord :=
  GoMap arrival lines (fun i line =>
    match toDate line with
    | none => []
    | some t => [{ Content := "", Line := i, File := file, Time := t }])

/-! ## The library routine behind `sort.Slice` -/

/-- The call `data.Swap(i, j)` of the library's `lessSwap`: the elements at the
indices `i` and `j` of the slice change places (the routines below pass indices
inside the slice). -/
def swapAt {α : Type} [Inhabited α] (data : List α) (i j : Nat) : List α :=
  (data.set i (data.getD j default)).set j (data.getD i default)

/-- The call `data.Less(i, j)` of the library's `lessSwap`: the comparison given
to `sort.Slice`, applied to the elements now at the indices `i` and `j`. -/
def lessAt {α : Type} [Inhabited α] (less : α → α → Bool) (data : List α) (i j : Nat) : Bool :=
  less (data.getD i default) (data.getD j default)

/-- The loop `for ; j > lo && data.Less(j, j-1); j-- { data.Swap(j, j-1) }`,
started at the index given as first argument. -/
def shiftLeft {α : Type} [Inhabited α] (less : α → α → Bool) (lo : Nat) :
    Nat → List α → List α
  | 0, data => data
  | j + 1, data =>
    if lo < j + 1 ∧ lessAt less data (j + 1) j = true then
      shiftLeft less lo j (swapAt data (j + 1) j)
    else data

/-- The outer loop of `insertionSort_func`, `for i := ...; i < b; i++`, with `n`
iterations left and the loop variable at `i`. -/
def insertionSortFrom {α : Type} [Inhabited α] (less : α → α → Bool) (a : Nat) :
    Nat → Nat → List α → List α
  | 0, _, data => data
  | n + 1, i, data => insertionSortFrom less a n (i + 1) (shiftLeft less a i data)

/-- The library routine `insertionSort_func(data, a, b)`. -/
def insertionSort_func {α : Type} [Inhabited α] (less : α → α → Bool) (data : List α)
    (a b : Nat) : List α :=
  insertionSortFrom less a (b - (a + 1)) (a + 1) data

/-- The library routine `siftDown_func(data, lo, hi, first)`, the loop variable
`root` starting at `lo`; `n` bounds the iterations left (`hi - root` suffice,
`root` growing with each). -/
def siftDown_func {α : Type} [Inhabited α] (less : α → α → Bool) (hi first : Nat) :
    Nat → Nat → List α → List α
  | 0, _, data => data
  | n + 1, root, data =>
    if 2 * root + 1 ≥ hi then data
    else
      let child :=
        if 2 * root + 1 + 1 < hi ∧
            lessAt less data (first + (2 * root + 1)) (first + (2 * root + 1) + 1) = true then
          2 * root + 1 + 1
        else 2 * root + 1
      if lessAt less data (first + root) (first + child) = false then data
      else siftDown_func less hi first n child (swapAt data (first + root) (first + child))

/-- The first loop of `heapSort_func`, `for i := (hi-1)/2; i >= 0; i--`, with the
iterations for the indices below the first argument left. -/
def heapBuild {α : Type} [Inhabited α] (less : α → α → Bool) (hi first : Nat) :
    Nat → List α → List α
  | 0, data => data
  | i + 1, data => heapBuild less hi first i (siftDown_func less hi first (hi - i) i data)

/-- The second loop of `heapSort_func`, `for i := hi-1; i >= 0; i--`, with the
iterations for the indices below the first argument left. -/
def heapPop {α : Type} [Inhabited α] (less : α → α → Bool) (first : Nat) :
    Nat → List α → List α
  | 0, data => data
  | i + 1, data =>
    heapPop less first i (siftDown_func less i first i 0 (swapAt data first (first + i)))

/-- The library routine `heapSort_func(data, a, b)`. -/
def heapSort_func {α : Type} [Inhabited α] (less : α → α → Bool) (data : List α)
    (a b : Nat) : List α :=
  heapPop less a (b - a) (heapBuild less (b - a) a ((b - a - 1) / 2 + 1) data)

/-- A loop `for i <= j && test(i) { i++ }`, with `n` bounding the iterations
left (`j + 1 - i` suffice); the value of `i` after it. -/
def scanUp (test : Nat → Bool) (j : Nat) : Nat → Nat → Nat
  | 0, i => i
  | n + 1, i => if i ≤ j ∧ test i = true then scanUp test j n (i + 1) else i

/-- A loop `for i <= j && test(j) { j-- }`, started at the index given as last
argument; the value of `j` after it (`i` is never `0` here). -/
def scanDown (test : Nat → Bool) (i : Nat) : Nat → Nat
  | 0 => 0
  | j + 1 => if i ≤ j + 1 ∧ test (j + 1) = true then scanDown test i j else j + 1

/-- The closing loop of `partition_func`: scan up, scan down, stop when the scans
have met, else exchange and go on; `n` bounds the iterations left. -/
def partitionLoop {α : Type} [Inhabited α] (less : α → α → Bool) (a : Nat) :
    Nat → List α → Nat → Nat → List α × Nat
  | 0, data, _, j => (data, j)
  | n + 1, data, i, j =>
    let i1 := scanUp (fun k => lessAt less data k a) j (j + 1 - i) i
    let j1 := scanDown (fun k => !lessAt less data k a) i1 j
    if i1 > j1 then (data, j1)
    else partitionLoop less a n (swapAt data i1 j1) (i1 + 1) (j1 - 1)

/-- The library routine `partition_func(data, a, b, pivot)`: the slice, the new
index of the pivot and whether the range was already partitioned. -/
def partition_func {α : Type} [Inhabited α] (less : α → α → Bool) (data : List α)
    (a b pivot : Nat) : List α × Nat × Bool :=
  let data1 := swapAt data a pivot
  let i := scanUp (fun k => lessAt less data1 k a) (b - 1) (b - 1 + 1 - (a + 1)) (a + 1)
  let j := scanDown (fun k => !lessAt less data1 k a) i (b - 1)
  if i > j then (swapAt data1 j a, j, true)
  else
    let r := partitionLoop less a (b - a) (swapAt data1 i j) (i + 1) (j - 1)
    (swapAt r.1 r.2 a, r.2, false)

/-- The loop of `partitionEqual_func`; `n` bounds the iterations left. -/
def partitionEqualLoop {α : Type} [Inhabited α] (less : α → α → Bool) (a : Nat) :
    Nat → List α → Nat → Nat → List α × Nat
  | 0, data, i, _ => (data, i)
  | n + 1, data, i, j =>
    let i1 := scanUp (fun k => !lessAt less data a k) j (j + 1 - i) i
    let j1 := scanDown (fun k => lessAt less data a k) i1 j
    if i1 > j1 then (data, i1)
    else partitionEqualLoop less a n (swapAt data i1 j1) (i1 + 1) (j1 - 1)

/-- The library routine `partitionEqual_func(data, a, b, pivot)`: the slice and
the index the loop ends at. -/
def partitionEqual_func {α : Type} [Inhabited α] (less : α → α → Bool) (data : List α)
    (a b pivot : Nat) : List α × Nat :=
  partitionEqualLoop less a (b - a) (swapAt data a pivot) (a + 1) (b - 1)

/-- The loop `for j := ...; j < b; j++ { if !data.Less(j, j-1) { break };
data.Swap(j, j-1) }` of `partialInsertionSort_func`, with `n` iterations left. -/
def shiftRight {α : Type} [Inhabited α] (less : α → α → Bool) :
    Nat → Nat → List α → List α
  | 0, _, data => data
  | n + 1, j, data =>
    if lessAt less data j (j - 1) = false then data
    else shiftRight less n (j + 1) (swapAt data j (j - 1))

/-- The loop `for j := 0; j < maxSteps; j++` of `partialInsertionSort_func`, with
`steps` iterations left and the variable `i` at the given value: the slice and
whether it was found sorted. -/
def partialInsertionSortFrom {α : Type} [Inhabited α] (less : α → α → Bool) (a b : Nat) :
    Nat → Nat → List α → List α × Bool
  | 0, _, data => (data, false)
  | steps + 1, i, data =>
    let i1 := scanUp (fun k => !lessAt less data k (k - 1)) (b - 1) (b - i) i
    if i1 = b then (data, true)
    else if b - a < 50 then (data, false)
    else
      let data1 := swapAt data i1 (i1 - 1)
      let data2 := if i1 - a ≥ 2 then shiftLeft less 0 (i1 - 1) data1 else data1
      let data3 := if b - i1 ≥ 2 then shiftRight less (b - (i1 + 1)) (i1 + 1) data2 else data2
      partialInsertionSortFrom less a b steps i1 data3

/-- The library routine `partialInsertionSort_func(data, a, b)`. -/
def partialInsertionSort_func {α : Type} [Inhabited α] (less : α → α → Bool) (data : List α)
    (a b : Nat) : List α × Bool :=
  partialInsertionSortFrom less a b 5 (a + 1) data

/-- The library function `bits.Len`, by halving; `n` bounds the halvings left. -/
def bitsLenFrom : Nat → Nat → Nat
  | 0, _ => 0
  | n + 1, x => if x = 0 then 0 else bitsLenFrom n (x / 2) + 1

/-- The library function `bits.Len(x)`: the number of bits needed for `x`. -/
def bitsLen (x : Nat) : Nat :=
  bitsLenFrom x x

/-- The index `other` drawn by `breakPatterns_func` from the generator's value
`r`: `r & (modulus - 1)` for the power of two `modulus = 1 << bits.Len(length)`,
less `length` when it is not below `length`. -/
def breakIndex (length r : Nat) : Nat :=
  if r % 2 ^ bitsLen length ≥ length then r % 2 ^ bitsLen length - length
  else r % 2 ^ bitsLen length

/-- The library routine `breakPatterns_func(data, a, b)`.  `next` is the step
`xorshift.Next` of the library's pseudo-random generator, seeded with the
length: a parameter of the embedding. -/
def breakPatterns_func {α : Type} [Inhabited α] (next : Nat → Nat) (data : List α)
    (a b : Nat) : List α :=
  if b - a ≥ 8 then
    let idx := a + (b - a) / 4 * 2 - 1
    let r1 := next (b - a)
    let r2 := next r1
    let r3 := next r2
    let data1 := swapAt data (idx - 1 + 0) (a + breakIndex (b - a) r1)
    let data2 := swapAt data1 (idx - 1 + 1) (a + breakIndex (b - a) r2)
    swapAt data2 (idx - 1 + 2) (a + breakIndex (b - a) r3)
  else data

/-- The library type `sortedHint`. -/
inductive SortedHint where
  | unknownHint
  | increasingHint
  | decreasingHint
deriving DecidableEq, Repr

/-- The library routine `order2_func(data, a, b, swaps)`: the two indices in
order and the new count of swaps. -/
def order2_func {α : Type} [Inhabited α] (less : α → α → Bool) (data : List α)
    (a b swaps : Nat) : Nat × Nat × Nat :=
  if lessAt less data b a = true then (b, a, swaps + 1) else (a, b, swaps)

/-- The library routine `median_func(data, a, b, c, swaps)`: the index of the
median and the new count of swaps. -/
def median_func {α : Type} [Inhabited α] (less : α → α → Bool) (data : List α)
    (a b c swaps : Nat) : Nat × Nat :=
  let r1 := order2_func less data a b swaps
  let r2 := order2_func less data r1.2.1 c r1.2.2
  let r3 := order2_func less data r1.1 r2.1 r2.2.2
  (r3.2.1, r3.2.2)

/-- The library routine `medianAdjacent_func(data, a, swaps)`. -/
def medianAdjacent_func {α : Type} [Inhabited α] (less : α → α → Bool) (data : List α)
    (a swaps : Nat) : Nat × Nat :=
  median_func less data (a - 1) a (a + 1) swaps

/-- The library routine `choosePivot_func(data, a, b)`. -/
def choosePivot_func {α : Type} [Inhabited α] (less : α → α → Bool) (data : List α)
    (a b : Nat) : Nat × SortedHint :=
  let l := b - a
  let i := a + l / 4 * 1
  let j := a + l / 4 * 2
  let k := a + l / 4 * 3
  let r :=
    if l ≥ 8 then
      if l ≥ 50 then
        let ri := medianAdjacent_func less data i 0
        let rj := medianAdjacent_func less data j ri.2
        let rk := medianAdjacent_func less data k rj.2
        median_func less data ri.1 rj.1 rk.1 rk.2
      else median_func less data i j k 0
    else (j, 0)
  if r.2 = 0 then (r.1, SortedHint.increasingHint)
  else if r.2 = 4 * 3 then (r.1, SortedHint.decreasingHint)
  else (r.1, SortedHint.unknownHint)

/-- The loop of `reverseRange_func`, `for i < j { data.Swap(i, j); i++; j-- }`,
with `n` bounding the iterations left. -/
def reverseRangeFrom {α : Type} [Inhabited α] : Nat → Nat → Nat → List α → List α
  | 0, _, _, data => data
  | n + 1, i, j, data =>
    if i < j then reverseRangeFrom n (i + 1) (j - 1) (swapAt data i j) else data

/-- The library routine `reverseRange_func(data, a, b)`. -/
def reverseRange_func {α : Type} [Inhabited α] (data : List α) (a b : Nat) : List α :=
  reverseRangeFrom (b - a) a (b - 1) data

/-- The library routine `pdqsort_func(data, a, b, limit)`.  `fuel` bounds the
depth of the loop iterations and recursive calls left (`b - a + 1` suffice, the
range shrinking with each); `wasBalanced` and `wasPartitioned` are the loop's
two flags, `true` at the start of a call. -/
def pdqsort_func {α : Type} [Inhabited α] (less : α → α → Bool) (next : Nat → Nat) :
    Nat → List α → Nat → Nat → Nat → Bool → Bool → List α
  | 0, data, _, _, _, _, _ => data
  | fuel + 1, data, a, b, limit, wasBalanced, wasPartitioned =>
    if b - a ≤ 12 then insertionSort_func less data a b
    else if limit = 0 then heapSort_func less data a b
    else
      let data1 := if wasBalanced then data else breakPatterns_func next data a b
      let limit1 := if wasBalanced then limit else limit - 1
      let chosen := choosePivot_func less data1 a b
      let data2 :=
        if chosen.2 = SortedHint.decreasingHint then reverseRange_func data1 a b else data1
      let pivot :=
        if chosen.2 = SortedHint.decreasingHint then (b - 1) - (chosen.1 - a) else chosen.1
      let hint :=
        if chosen.2 = SortedHint.decreasingHint then SortedHint.increasingHint else chosen.2
      let tried :=
        if wasBalanced && wasPartitioned && decide (hint = SortedHint.increasingHint) then
          partialInsertionSort_func less data2 a b
        else (data2, false)
      if tried.2 = true then tried.1
      else if a > 0 ∧ lessAt less tried.1 (a - 1) pivot = false then
        let eq := partitionEqual_func less tried.1 a b pivot
        pdqsort_func less next fuel eq.1 eq.2 b limit1 wasBalanced wasPartitioned
      else
        let parted := partition_func less tried.1 a b pivot
        let mid := parted.2.1
        if mid - a < b - mid then
          pdqsort_func less next fuel
            (pdqsort_func less next fuel parted.1 a mid limit1 true true)
            (mid + 1) b limit1 (decide (mid - a ≥ (b - a) / 8)) parted.2.2
        else
          pdqsort_func less next fuel
            (pdqsort_func less next fuel parted.1 (mid + 1) b limit1 true true)
            a mid limit1 (decide (b - mid ≥ (b - a) / 8)) parted.2.2

/-- The library call `sort.Slice(xs, less)`:
`pdqsort_func(data, 0, length, bits.Len(uint(length)))`. -/
def sortSlice {α : Type} [Inhabited α] (less : α → α → Bool) (next : Nat → Nat)
    (xs : List α) : List α :=
  pdqsort_func less next (xs.length + 1) xs 0 xs.length (bitsLen xs.length) true true

/-! ## The sort step -/

/-- The comparison passed to `sort.Slice` in `main` (line 192):
`!logs[i].Time.Before(logs[j].Time)`. -/
def timeNotBefore (a b : LogRecord) : Bool :=
  !(decide (a.Time < b.Time))

/-- The sort step of `main` (lines 190-193); `next` is the step of the library's
pseudo-random generator (see `breakPatterns_func`). -/
def sortLogs (next : Nat → Nat) (logs : List LogRecord) : List LogRecord :=
  sortSlice timeNotBefore next logs

/-! ## The date filters and the limit -/

/-- The date filters of `main` (lines 195-223).  `after`, `before` and `ago`
are the bounds in force: `after` is `some start` when `--after` is non-empty and
`StrToDate` returns a time for it, `before` likewise for `--before`, and `ago` is
`some (now - d)` when `--ago` is non-empty and parses to the duration `d`.
`funk.Filter` keeps the elements that satisfy the predicate, in order. -/
def filterLogs (after before ago : Option Int) (logs : List LogRecord) : List LogRecord :=
  let logs1 :=
    match after with
    | some start => logs.filter (fun log => decide (log.Time > start))
    | none => logs
  let logs2 :=
    match before with
    | some end_ => logs1.filter (fun log => decide (log.Time < end_))
    | none => logs1
  match ago with
  | some t => logs2.filter (fun log => decide (log.Time > t))
  | none => logs2

/-- The record list `main` goes on with after the filters (lines 195-230): when
nothing is left the run ends with "no logs" and the list left is empty,
otherwise the list is cut to `logs[:min(opts.Limit, len(logs))]`. -/
def selectLogs (after before ago : Option Int) (limit : Int) (logs : List LogRecord) :
    Option (List LogRecord) :=
  let filtered := filterLogs after before ago logs
  if filtered.length = 0 then some []
  else goSlice filtered 0 (min limit filtered.length)

/-! ## Range resolution -/

/-- The three clamping steps of `GetRangeLines` (lines 277-286): the pair
`(start, end)` the slice expression of line 287 is evaluated with. -/
def clampRange (linesLength start end_ : Int) : Int × Int :=
  let end1 := if end_ > linesLength then linesLength else end_
  let start1 := if start > end1 then end1 - 1 else start
  let start2 := if start1 < 0 then 0 else start1
  (start2, end1)

/-- The function `GetRangeLines` (lines 276-296).  `f = none` is Go's `nil`;
a transform may itself panic, which `none` as its result stands for. -/
def GetRangeLines (lines : List String) (start end_ : Int) (sep : String)
    (f : Option (String → Option String)) : Option String :=
  match goSlice lines (clampRange lines.length start end_).1
      (clampRange lines.length start end_).2 with
  | none => none
  | some [] => some ""
  | some (first :: rest) =>
    match f with
    | none => some (stringsJoin (first :: rest) sep)
    | some g =>
      match g first with
      | none => none
      | some first1 => some (stringsJoin (first1 :: rest) sep)

/-- The closure passed to `GetRangeLines` by the content loop of `main`
(lines 239-245), for `opts.SkipColumn = skipColumn`. -/
def skipColumns (skipColumn : Int) (line : String) : Option String :=
  let parts := stringsSplit line ' '
  if (parts.length : Int) < skipColumn then some ""
  else
    match goSlice parts skipColumn parts.length with
    | none => none
    | some kept => some (stringsJoin kept " ")

/-- The range end computed for the record at index `i` by the content loop of
`main` (lines 235-238); `i < logsLength-1` is `i + 1 < len(logs)`. -/
def contentEnd (logs : List LogRecord) (i : Nat) (log : LogRecord) : Int :=
  if h : i + 1 < logs.length then logs[i + 1].Line else log.Line + 1

/-- One iteration of the content loop of `main` (lines 234-246): the record at
index `i` with its `Content` set. -/
def renderContent (lineMap : String → List String) (skipColumn : Int)
    (logs : List LogRecord) (i : Nat) (log : LogRecord) : Option LogRecord :=
  match GetRangeLines (lineMap log.File) log.Line (contentEnd logs i log) " "
      (some (skipColumns skipColumn)) with
  | none => none
  | some content => some { log with Content := content }

/-- The iterations of the content loop of `main` from index `i` on, `rest` being
the records at the indices `i, i+1, ...`. -/
def contentLoopFrom (lineMap : String → List String) (skipColumn : Int)
    (logs : List LogRecord) : Nat → List LogRecord → Option (List LogRecord)
  | _, [] => some []
  | i, log :: rest =>
    match renderContent lineMap skipColumn logs i log with
    | none => none
    | some rendered =>
      match contentLoopFrom lineMap skipColumn logs (i + 1) rest with
      | none => none
      | some others => some (rendered :: others)

/-- The content loop of `main` (lines 234-246), `for i, log := range logs`.  An
iteration reads only the `Line` and `File` fields, which no iteration writes, so
every iteration sees them as they were before the loop. -/
def contentLoop (lineMap : String → List String) (skipColumn : Int)
    (logs : List LogRecord) : Option (List LogRecord) :=
  contentLoopFrom lineMap skipColumn logs 0 logs

/-- The preview callback handed to the fuzzy finder (lines 253-263), called with
the index `i` and the preview window's width `w` and height `h`. -/
def preview (lineMap : String → List String) (logs : List LogRecord) (i _w h : Int) :
    Option String :=
  if i = -1 then some ""
  else if hi : 0 ≤ i ∧ i.toNat < logs.length then
    let start := (logs[i.toNat]).Line
    let end_ :=
      if hn : i.toNat + 1 < logs.length then (logs[i.toNat + 1]).Line + h
      else (logs[i.toNat]).Line + 1
    GetRangeLines (lineMap (logs[i.toNat]).File) start end_ "\n" none
  else none

/-- The pair `(start, end)` of the slice `GetRangeLines` takes when the content
loop renders the record `log` at index `i` (line 239 calling line 287). -/
def contentRange (lineMap : String → List String) (logs : List LogRecord) (i : Nat)
    (log : LogRecord) : Int × Int :=
  clampRange (lineMap log.File).length log.Line (contentEnd logs i log)

/-- The lines `GetRangeLines` keeps: the slice of line 287, taken with the
clamped `(start, end)`. -/
def clampedLines (lines : List String) (start end_ : Int) : List String :=
  (lines.drop (clampRange lines.length start end_).1.toNat).take
    ((clampRange lines.length start end_).2.toNat - (clampRange lines.length start end_).1.toNat)

/-! ## The specification's wording, for comparison with the code -/

/-- Follows the spec's words, not the code: the whitespace-delimited fields of a
character sequence, the maximal runs of characters that are not whitespace. -/
def specFieldsChars : List Char → List (List Char)
  | [] => []
  | c :: cs =>
    if c.isWhitespace then specFieldsChars cs
    else
      match cs with
      | [] => [[c]]
      | d :: _ =>
        if d.isWhitespace then [c] :: specFieldsChars cs
        else
          match specFieldsChars cs with
          | [] => [[c]]
          | field :: fields => (c :: field) :: fields

/-- Follows the spec's words: the whitespace-delimited fields of a line. -/
def specFields (line : String) : List String :=
  (specFieldsChars line.data).map String.mk

/-- Follows the spec's words: the whitespace-delimited fields of the line with
the first `k` removed, joined by single spaces. -/
def specSkipColumns (k : Nat) (line : String) : String :=
  stringsJoin ((specFields line).drop k) " "

/-- Follows the spec's words: the range end of the record `log` at index `i` is
the `Line` of the next record after `i` that has the same `File`, and
`log.Line + 1` when no later record has that `File`. -/
def specRangeEnd (logs : List LogRecord) (i : Nat) (log : LogRecord) : Int :=
  match (logs.drop (i + 1)).find? (fun r => decide (r.File = log.File)) with
  | some next => next.Line
  | none => log.Line + 1

/-- Follows the spec's words: a record is strictly after the after-bound and
strictly before the before-bound, an absent bound excluding nothing. -/
def withinBounds (after before : Option Int) (log : LogRecord) : Bool :=
  (match after with
    | some a => decide (a < log.Time)
    | none => true) &&
  (match before with
    | some b => decide (log.Time < b)
    | none => true)

/-! ## Example data: one source of 30 lines -/

/-- A source of 30 lines. -/
def exampleLines : List String :=
  ["l0", "l1", "l2", "l3", "l4", "l5", "l6", "l7", "l8", "l9",
   "l10", "l11", "l12", "l13", "l14", "l15", "l16", "l17", "l18", "l19",
   "l20", "l21", "l22", "l23", "l24", "l25", "l26", "l27", "l28", "l29"]

/-- The records of timestamps detected at the lines 5, 12 and 20 of one source,
later lines carrying later times. -/
def exampleRecords : List LogRecord :=
  [⟨100, "", "app.log", 5⟩, ⟨200, "", "app.log", 12⟩, ⟨300, "", "app.log", 20⟩]

/-- A generator step for the examples (slices of at most 12 elements never
consult the generator). -/
def exampleNext (r : Nat) : Nat :=
  r + 1

/-- Thirteen records of one `Time`, at the lines 0 to 12 in this order. -/
def exampleTies : List LogRecord :=
  [⟨7, "", "f", 0⟩, ⟨7, "", "f", 1⟩, ⟨7, "", "f", 2⟩, ⟨7, "", "f", 3⟩, ⟨7, "", "f", 4⟩,
   ⟨7, "", "f", 5⟩, ⟨7, "", "f", 6⟩, ⟨7, "", "f", 7⟩, ⟨7, "", "f", 8⟩, ⟨7, "", "f", 9⟩,
   ⟨7, "", "f", 10⟩, ⟨7, "", "f", 11⟩, ⟨7, "", "f", 12⟩]

/-- A detector that finds a time in the lines `t1` and `t3` only. -/
def exampleToDate (line : String) : Option Int :=
  if line = "t1" then some 1 else if line = "t3" then some 3 else none

/-! ## Invariants of the library's sort routines -/

/-- The slice `l'` is `l` with the elements at the indices `a ≤ k < b` moved
among themselves. -/
structure Shuffled {α : Type} [Inhabited α] (a b : Nat) (l l' : List α) : Prop where
  perm : l'.Perm l
  frame : ∀ k, k < a ∨ b ≤ k → l'.getD k default = l.getD k default
  seg : ∀ k, a ≤ k → k < b → ∃ k', a ≤ k' ∧ k' < b ∧ l'.getD k default = l.getD k' default

/-- The elements at the indices `a ≤ k < b` are in order: `less` holds from each
to every later one. -/
def SortedSeg {α : Type} [Inhabited α] (less : α → α → Bool) (a b : Nat) (l : List α) : Prop :=
  ∀ i j, a ≤ i → i < j → j < b → less (l.getD i default) (l.getD j default) = true

/-- The heap property `heapSort_func` keeps below `first + hi` for the parents
from `first + lo` on: `less` holds from each child to its parent. -/
def HeapFrom {α : Type} [Inhabited α] (less : α → α → Bool) (first lo hi : Nat) (l : List α) : Prop :=
  ∀ p c, lo ≤ p → c < hi → (c = 2 * p + 1 ∨ c = 2 * p + 2) →
    less (l.getD (first + c) default) (l.getD (first + p) default) = true

/-- What `pdqsort_func` relies on below the range it sorts: no element of the
range is `less` than the element just before the range (an earlier pivot). -/
def PredBelow {α : Type} [Inhabited α] (less : α → α → Bool) (a b : Nat) (l : List α) : Prop :=
  a = 0 ∨ ∀ k, a ≤ k → k < b →
    less (l.getD k default) (l.getD (a - 1) default) = false

/-! ## Slices and clamping -/

theorem goSlice_of_bounds {α : Type} (xs : List α) (lo hi : Int)
    (h0 : 0 ≤ lo) (h1 : lo ≤ hi) (h2 : hi ≤ (xs.length : Int)) :
    goSlice xs lo hi = some ((xs.drop lo.toNat).take (hi.toNat - lo.toNat)) := by
  unfold goSlice
  rw [if_pos ⟨h0, h1, h2⟩]

theorem clampRange_bounds (len start end_ : Int) (hlen : 0 ≤ len) (hend : 0 ≤ end_) :
    0 ≤ (clampRange len start end_).1 ∧
      (clampRange len start end_).1 ≤ (clampRange len start end_).2 ∧
      (clampRange len start end_).2 ≤ len := by
  unfold clampRange
  simp only
  split_ifs <;> omega

theorem clampRange_of_valid (len start end_ : Int) (h0 : 0 ≤ start) (h1 : start ≤ end_)
    (h2 : end_ ≤ len) : clampRange len start end_ = (start, end_) := by
  unfold clampRange
  simp only
  split_ifs <;> first | rfl | omega

/-! ## GetRangeLines -/

/-- Claim C3, amended: for every line buffer, every integer `start` and every
integer `end ≥ 0`, the range `GetRangeLines` slices after clamping satisfies
`0 ≤ start' ≤ end' ≤ len(lines)`, the call does not panic (without a transform,
or with one that returns), and whenever the clamped range holds no line the
result is the empty string. -/
theorem GetRangeLines_safe_of_nonneg_end (lines : List String) (start end_ : Int) (sep : String)
    (hend : 0 ≤ end_) :
    (0 ≤ (clampRange lines.length start end_).1 ∧
      (clampRange lines.length start end_).1 ≤ (clampRange lines.length start end_).2 ∧
      (clampRange lines.length start end_).2 ≤ (lines.length : Int)) ∧
    (∃ out, GetRangeLines lines start end_ sep none = some out) ∧
    (∀ g : String → String,
      ∃ out, GetRangeLines lines start end_ sep (some (fun s => some (g s))) = some out) ∧
    (∀ f, (clampRange lines.length start end_).1 = (clampRange lines.length start end_).2 →
      GetRangeLines lines start end_ sep f = some "") := by
  have hb := clampRange_bounds lines.length start end_ (Int.natCast_nonneg _) hend
  obtain ⟨h0, h1, h2⟩ := hb
  have hs := goSlice_of_bounds lines _ _ h0 h1 h2
  refine ⟨⟨h0, h1, h2⟩, ?_, ?_, ?_⟩
  · unfold GetRangeLines
    rw [hs]
    split <;> simp_all
  · intro g
    unfold GetRangeLines
    rw [hs]
    split <;> simp_all
  · intro f heq
    unfold GetRangeLines
    rw [hs, heq]
    simp

theorem GetRangeLines_of_valid_range (lines : List String) (s e : Nat) (sep : String)
    (hse : s < e) (hel : e ≤ lines.length) :
    (∀ f : String → Option String,
      GetRangeLines lines s e sep (some f) =
        (f (lines.get ⟨s, by omega⟩)).map
          (fun first => stringsJoin (first :: (lines.drop (s + 1)).take (e - (s + 1))) sep)) ∧
    GetRangeLines lines s e sep none =
      some (stringsJoin ((lines.drop s).take (e - s)) sep) := by
  have hc : clampRange (lines.length : Int) s e = ((s : Int), (e : Int)) :=
    clampRange_of_valid _ _ _ (by omega) (by omega) (by omega)
  have hs : goSlice lines (s : Int) (e : Int) = some ((lines.drop s).take (e - s)) := by
    rw [goSlice_of_bounds lines _ _ (by omega) (by omega) (by omega)]
    simp
  have hd : (lines.drop s).take (e - s) =
      lines.get ⟨s, by omega⟩ :: (lines.drop (s + 1)).take (e - (s + 1)) := by
    rw [List.drop_eq_getElem_cons (by omega : s < lines.length)]
    have : e - s = (e - (s + 1)) + 1 := by omega
    rw [this, List.take_succ_cons]
    rfl
  constructor
  · intro f
    unfold GetRangeLines
    rw [hc]
    simp only
    rw [hs, hd]
    simp only
    cases f (lines.get ⟨s, by omega⟩) <;> rfl
  · unfold GetRangeLines
    rw [hc]
    simp only
    rw [hs, hd]

theorem GetRangeLines_safe_of_nonneg_end_witness :
    (0 : Int) ≤ 0 ∧
    clampRange (["a", "b", "c"] : List String).length 5 0 = (0, 0) ∧
    GetRangeLines ["a", "b", "c"] 5 0 " " none = some "" ∧
    ∃ out, GetRangeLines ["a", "b", "c"] 5 7 " " none = some out := by
  have h0 := GetRangeLines_safe_of_nonneg_end ["a", "b", "c"] 5 0 " " (by decide)
  have h7 := GetRangeLines_safe_of_nonneg_end ["a", "b", "c"] 5 7 " " (by decide)
  exact ⟨by decide, by decide, h0.2.2.2 none (by decide), h7.2.1⟩

/-- Claim C7: for every line buffer, every `0 ≤ start < end ≤ len(lines)`, every
separator and every transform `f`, `GetRangeLines` returns `f(lines[start])`
followed by `lines[start+1], ..., lines[end-1]` unchanged, joined by the
separator (and panics exactly when `f` does); with `f = nil` it returns
`lines[start..end)` joined by the separator. -/
theorem GetRangeLines_joins_range (lines : List String) (s e : Nat) (sep : String)
    (hse : s < e) (hel : e ≤ lines.length) :
    (∀ f : String → String,
      GetRangeLines lines s e sep (some (fun line => some (f line))) =
        some (stringsJoin (f (lines.get ⟨s, by omega⟩) ::
          (lines.drop (s + 1)).take (e - (s + 1))) sep)) ∧
    (∀ f : String → Option String,
      GetRangeLines lines s e sep (some f) =
        (f (lines.get ⟨s, by omega⟩)).map
          (fun first => stringsJoin (first :: (lines.drop (s + 1)).take (e - (s + 1))) sep)) ∧
    GetRangeLines lines s e sep none =
      some (stringsJoin ((lines.drop s).take (e - s)) sep) := by
  obtain ⟨h1, h2⟩ := GetRangeLines_of_valid_range lines s e sep hse hel
  refine ⟨fun f => ?_, h1, h2⟩
  rw [h1]
  rfl

theorem GetRangeLines_joins_range_witness :
    1 < 3 ∧ 3 ≤ ["a", "b", "c", "d"].length ∧
    GetRangeLines ["a", "b", "c", "d"] 1 3 "-" (some (fun line => some (line ++ "!"))) =
      some "b!-c" ∧
    GetRangeLines ["a", "b", "c", "d"] 1 3 "-" none = some "b-c" := by
  have h := GetRangeLines_joins_range ["a", "b", "c", "d"] 1 3 "-" (by decide) (by decide)
  exact ⟨by decide, by decide, (h.1 (fun line => line ++ "!")).trans (by decide),
    h.2.2.trans (by decide)⟩

/-- Claim C3 fails at a negative range end: with `end = -1` the clamping steps
leave `start = 0 > end = -1`, and the slice expression of line 287 panics. -/
theorem GetRangeLines_negative_end_panics :
    clampRange (["a"] : List String).length 0 (-1) = (0, -1) ∧
    ¬ ((clampRange (["a"] : List String).length 0 (-1)).1 ≤
      (clampRange (["a"] : List String).length 0 (-1)).2) ∧
    GetRangeLines ["a"] 0 (-1) " " none = none ∧
    GetRangeLines ["a"] 0 (-1) " " (some (skipColumns 0)) = none := by
  decide

/-! ## The first-line transform -/

theorem specFieldsChars_ws (c : Char) (cs : List Char) (h : c.isWhitespace = true) :
    specFieldsChars (c :: cs) = specFieldsChars cs := by
  cases cs <;> simp [specFieldsChars, h]

theorem specFieldsChars_single (c : Char) (h : c.isWhitespace = false) :
    specFieldsChars [c] = [[c]] := by
  simp [specFieldsChars, h]

theorem specFieldsChars_end (c d : Char) (cs : List Char) (hc : c.isWhitespace = false)
    (hd : d.isWhitespace = true) :
    specFieldsChars (c :: d :: cs) = [c] :: specFieldsChars (d :: cs) := by
  simp [specFieldsChars, hc, hd]

theorem specFieldsChars_grow (c d : Char) (cs : List Char) (field : List Char)
    (fields : List (List Char)) (hc : c.isWhitespace = false) (hd : d.isWhitespace = false)
    (hrest : specFieldsChars (d :: cs) = field :: fields) :
    specFieldsChars (c :: d :: cs) = (c :: field) :: fields := by
  rw [specFieldsChars, if_neg (by simp [hc]), if_neg (by simp [hd]), hrest]

theorem splitChars_ne_nil (sep : Char) (cs : List Char) : splitChars sep cs ≠ [] := by
  cases cs with
  | nil => simp [splitChars]
  | cons c cs =>
    unfold splitChars
    split_ifs
    · simp
    · split <;> simp

theorem skipColumns_eq_drop (k : Int) (line : String) (hk : 0 ≤ k) :
    skipColumns k line = some (stringsJoin ((stringsSplit line ' ').drop k.toNat) " ") := by
  unfold skipColumns
  simp only
  split_ifs with hlt
  · have : (stringsSplit line ' ').drop k.toNat = [] := by
      apply List.drop_eq_nil_of_le
      omega
    rw [this]
    rfl
  · rw [goSlice_of_bounds _ _ _ hk (by omega) (le_refl _)]
    simp only [Int.toNat_ofNat]
    rw [List.take_of_length_le]
    simp

theorem specFieldsChars_eq_filter (cs : List Char)
    (h : ∀ part ∈ splitChars ' ' cs, ∀ c ∈ part, c.isWhitespace = false) :
    specFieldsChars cs = (splitChars ' ' cs).filter (fun part => decide (part ≠ [])) := by
  induction cs with
  | nil => simp [specFieldsChars, splitChars]
  | cons c cs ih =>
    by_cases hc : c = ' '
    · subst hc
      have hsplit : splitChars ' ' (' ' :: cs) = [] :: splitChars ' ' cs := by
        simp [splitChars]
      rw [hsplit] at h ⊢
      have hws : (' ' : Char).isWhitespace = true := by decide
      rw [specFieldsChars_ws _ _ hws]
      rw [ih (fun part hp => h part (List.mem_cons_of_mem _ hp))]
      simp
    · obtain ⟨p, ps, hps⟩ : ∃ p ps, splitChars ' ' cs = p :: ps := by
        cases hsp : splitChars ' ' cs with
        | nil => exact absurd hsp (splitChars_ne_nil _ _)
        | cons p ps => exact ⟨p, ps, rfl⟩
      have hsplit : splitChars ' ' (c :: cs) = (c :: p) :: ps := by
        rw [splitChars, if_neg hc, hps]
      rw [hsplit] at h ⊢
      have hcw : c.isWhitespace = false := h (c :: p) (List.mem_cons_self _ _) c (List.mem_cons_self _ _)
      have hp : ∀ x ∈ p, x.isWhitespace = false := fun x hx =>
        h (c :: p) (List.mem_cons_self _ _) x (List.mem_cons_of_mem _ hx)
      have hps2 : ∀ part ∈ ps, ∀ x ∈ part, x.isWhitespace = false := fun part hpart =>
        h part (List.mem_cons_of_mem _ hpart)
      have hih : specFieldsChars cs = (p :: ps).filter (fun part => decide (part ≠ [])) := by
        rw [← hps]
        apply ih
        intro part hpart
        rw [hps] at hpart
        rcases List.mem_cons.mp hpart with rfl | hpart
        · exact hp
        · exact hps2 part hpart
      have hfilter : ((c :: p) :: ps).filter (fun part => decide (part ≠ [])) =
          (c :: p) :: ps.filter (fun part => decide (part ≠ [])) := by
        simp
      rw [hfilter]
      cases cs with
      | nil =>
        simp [splitChars] at hps
        obtain ⟨rfl, rfl⟩ := hps
        simp [specFieldsChars, hcw]
      | cons d cs1 =>
        by_cases hd : d = ' '
        · subst hd
          have : splitChars ' ' (' ' :: cs1) = [] :: splitChars ' ' cs1 := by simp [splitChars]
          rw [this] at hps
          injection hps with h1 h2
          subst h1
          have hws : (' ' : Char).isWhitespace = true := by decide
          rw [specFieldsChars_end _ _ _ hcw hws, hih]
          simp
        · have hsd : ∃ p1, p = d :: p1 := by
            rw [splitChars, if_neg hd] at hps
            split at hps
            · injection hps with h1 h2
              exact ⟨[], h1.symm⟩
            · injection hps with h1 h2
              exact ⟨_, h1.symm⟩
          obtain ⟨p1, rfl⟩ := hsd
          have hdw : d.isWhitespace = false := hp d (List.mem_cons_self _ _)
          have hih2 : specFieldsChars (d :: cs1) =
              (d :: p1) :: ps.filter (fun part => decide (part ≠ [])) := by
            rw [hih]
            simp
          rw [specFieldsChars_grow _ _ _ _ _ hcw hdw hih2]

/-! ## The library's sort routines -/

theorem length_swapAt {α : Type} [Inhabited α] (l : List α) (i j : Nat) : (swapAt l i j).length = l.length := by
  simp [swapAt]

theorem getD_swapAt {α : Type} [Inhabited α] (l : List α) (i j k : Nat) (hi : i < l.length) (hj : j < l.length) :
    (swapAt l i j).getD k default =
      if k = j then l.getD i default else if k = i then l.getD j default else l.getD k default := by
  unfold swapAt
  simp only [List.getD_eq_getElem?_getD, List.getElem?_set]
  by_cases hkj : k = j
  · subst hkj
    simp [hj]
  · by_cases hki : k = i
    · subst hki
      simp [hkj, hi, Ne.symm hkj]
    · simp [hkj, hki, Ne.symm hkj, Ne.symm hki]

theorem swapAt_perm {α : Type} [Inhabited α] (l : List α) (i j : Nat) (hi : i < l.length) (hj : j < l.length) :
    (swapAt l i j).Perm l := by
  classical
  rw [List.perm_iff_count]
  intro x
  unfold swapAt
  rw [List.count_set _ _ _ _ (by simpa using hj), List.count_set _ _ _ _ hi]
  simp only [List.getD_eq_getElem?_getD, List.getElem?_eq_getElem hi, List.getElem?_eq_getElem hj,
    Option.getD_some, List.getElem_set]
  have h1 : (if l[i] == x then 1 else 0) ≤ l.count x := by
    split_ifs with h
    · have : l[i] = x := by simpa using h
      rw [← this]
      exact List.count_pos_iff.mpr (List.getElem_mem _)
    · omega
  have h2 : (if l[j] == x then 1 else 0) ≤ l.count x := by
    split_ifs with h
    · have : l[j] = x := by simpa using h
      rw [← this]
      exact List.count_pos_iff.mpr (List.getElem_mem _)
    · omega
  by_cases hij : i = j
  · subst hij
    simp only [if_true]
    split_ifs at * <;> omega
  · simp only [hij, if_false]
    split_ifs at * <;> omega

theorem Shuffled.refl {α : Type} [Inhabited α] (a b : Nat) (l : List α) : Shuffled a b l l :=
  ⟨List.Perm.refl _, fun _ _ => rfl, fun k h1 h2 => ⟨k, h1, h2, rfl⟩⟩

theorem Shuffled.length_eq {α : Type} [Inhabited α] {a b : Nat} {l l' : List α} (h : Shuffled a b l l') :
    l'.length = l.length :=
  h.perm.length_eq

theorem Shuffled.trans {α : Type} [Inhabited α] {a b : Nat} {l l1 l2 : List α} (h1 : Shuffled a b l l1)
    (h2 : Shuffled a b l1 l2) : Shuffled a b l l2 := by
  refine ⟨h2.perm.trans h1.perm, fun k hk => (h2.frame k hk).trans (h1.frame k hk), ?_⟩
  intro k hk1 hk2
  obtain ⟨k1, ha, hb, he⟩ := h2.seg k hk1 hk2
  obtain ⟨k2, ha2, hb2, he2⟩ := h1.seg k1 ha hb
  exact ⟨k2, ha2, hb2, he.trans he2⟩

theorem Shuffled.widen {α : Type} [Inhabited α] {a b a' b' : Nat} {l l' : List α} (h : Shuffled a b l l')
    (ha : a' ≤ a) (hb : b ≤ b') : Shuffled a' b' l l' := by
  refine ⟨h.perm, fun k hk => h.frame k (by omega), ?_⟩
  intro k hk1 hk2
  by_cases hin : a ≤ k ∧ k < b
  · obtain ⟨k1, h1, h2, he⟩ := h.seg k hin.1 hin.2
    exact ⟨k1, by omega, by omega, he⟩
  · exact ⟨k, hk1, hk2, h.frame k (by omega)⟩

theorem shuffled_swapAt {α : Type} [Inhabited α] (a b : Nat) (l : List α) (i j : Nat) (hi : a ≤ i) (hib : i < b)
    (hj : a ≤ j) (hjb : j < b) (hb : b ≤ l.length) : Shuffled a b l (swapAt l i j) := by
  have hil : i < l.length := by omega
  have hjl : j < l.length := by omega
  refine ⟨swapAt_perm l i j hil hjl, ?_, ?_⟩
  · intro k hk
    rw [getD_swapAt l i j k hil hjl, if_neg (by omega), if_neg (by omega)]
  · intro k hk1 hk2
    rw [getD_swapAt l i j k hil hjl]
    split_ifs
    · exact ⟨i, hi, hib, rfl⟩
    · exact ⟨j, hj, hjb, rfl⟩
    · exact ⟨k, hk1, hk2, rfl⟩

/-- A property of all elements of the range holds after the elements have moved
among themselves. -/
theorem Shuffled.forall_seg {α : Type} [Inhabited α] {a b : Nat} {l l' : List α} (h : Shuffled a b l l')
    (P : α → Prop) (hP : ∀ k, a ≤ k → k < b → P (l.getD k default)) :
    ∀ k, a ≤ k → k < b → P (l'.getD k default) := by
  intro k h1 h2
  obtain ⟨k1, ha, hb, he⟩ := h.seg k h1 h2
  rw [he]
  exact hP k1 ha hb

theorem SortedSeg.of_frame {α : Type} [Inhabited α] {less : α → α → Bool} {a b : Nat} {l l' : List α}
    (h : SortedSeg less a b l)
    (hf : ∀ k, a ≤ k → k < b → l'.getD k default = l.getD k default) :
    SortedSeg less a b l' := by
  intro i j h1 h2 h3
  rw [hf i h1 (by omega), hf j (by omega) h3]
  exact h i j h1 h2 h3

theorem SortedSeg.narrow {α : Type} [Inhabited α] {less : α → α → Bool} {a b a' b' : Nat} {l : List α}
    (h : SortedSeg less a b l) (ha : a ≤ a') (hb : b' ≤ b) : SortedSeg less a' b' l :=
  fun i j h1 h2 h3 => h i j (by omega) h2 (by omega)

theorem shiftLeft_spec {α : Type} [Inhabited α] (less : α → α → Bool)
    (htot : ∀ x y, less x y = true ∨ less y x = true)
    (htr : ∀ x y z, less x y = true → less y z = true → less x z = true)
    (lo lo' : Nat) (hlo : lo ≤ lo') :
    ∀ (m : Nat) (l : List α), lo' ≤ m → m < l.length → SortedSeg less lo' m l →
      (lo' = lo ∨ less (l.getD m default) (l.getD (lo' - 1) default) = false) →
      Shuffled lo' (m + 1) l (shiftLeft less lo m l) ∧
        SortedSeg less lo' (m + 1) (shiftLeft less lo m l) := by
  intro m
  induction m with
  | zero =>
    intro l _ _ _ _
    refine ⟨Shuffled.refl _ _ _, ?_⟩
    intro i j h1 h2 h3
    omega
  | succ j ih =>
    intro l hm hlen hsorted hstop
    rw [shiftLeft]
    split_ifs with hcond
    · obtain ⟨hlt, hless⟩ := hcond
      have hlo'j : lo' ≤ j := by
        by_contra hc
        have hEq : lo' = j + 1 := by omega
        rcases hstop with h | h
        · omega
        · rw [hEq] at h
          simp only [Nat.add_sub_cancel] at h
          unfold lessAt at hless
          rw [h] at hless
          exact absurd hless (by simp)
      have hget := getD_swapAt l (j + 1) j
      have hjl : j < l.length := by omega
      have hsw : Shuffled lo' (j + 1 + 1) l (swapAt l (j + 1) j) :=
        shuffled_swapAt _ _ l (j + 1) j (by omega) (by omega) hlo'j (by omega) (by omega)
      have h1 : SortedSeg less lo' j (swapAt l (j + 1) j) := by
        intro i k hi hik hk
        rw [hget i hlen hjl, hget k hlen hjl, if_neg (by omega), if_neg (by omega),
          if_neg (by omega), if_neg (by omega)]
        exact hsorted i k hi hik (by omega)
      have h2 : lo' = lo ∨ less ((swapAt l (j + 1) j).getD j default)
          ((swapAt l (j + 1) j).getD (lo' - 1) default) = false := by
        by_cases hz : lo' = lo
        · exact Or.inl hz
        · right
          rcases hstop with h | h
          · exact absurd h hz
          · rw [hget j hlen hjl, hget (lo' - 1) hlen hjl, if_pos rfl, if_neg (by omega),
              if_neg (by omega)]
            exact h
      obtain ⟨hsh, hso⟩ := ih (swapAt l (j + 1) j) hlo'j (by rw [length_swapAt]; omega) h1 h2
      refine ⟨hsw.trans (hsh.widen (le_refl _) (by omega)), ?_⟩
      intro i k hi hik hk
      by_cases hkj : k < j + 1
      · exact hso i k hi hik hkj
      · have hk2 : k = j + 1 := by omega
        subst hk2
        rw [hsh.frame (j + 1) (Or.inr (le_refl _)), hget (j + 1) hlen hjl, if_neg (by omega),
          if_pos rfl]
        obtain ⟨i', hi1, hi2, he⟩ := hsh.seg i hi hik
        rw [he, hget i' hlen hjl]
        split_ifs with h3 h4
        · exact hless
        · omega
        · exact hsorted i' j hi1 (by omega) (by omega)
    · refine ⟨Shuffled.refl _ _ _, ?_⟩
      intro i k hi hik hk
      by_cases hkj : k < j + 1
      · exact hsorted i k hi hik hkj
      · have hk2 : k = j + 1 := by omega
        subst hk2
        have hnl : less (l.getD (j + 1) default) (l.getD j default) = false := by
          by_contra hc
          apply hcond
          refine ⟨by omega, ?_⟩
          unfold lessAt
          simpa using hc
        have hjx : less (l.getD j default) (l.getD (j + 1) default) = true := by
          rcases htot (l.getD j default) (l.getD (j + 1) default) with h | h
          · exact h
          · rw [hnl] at h
            exact absurd h (by simp)
        by_cases hij : i = j
        · subst hij
          exact hjx
        · exact htr _ _ _ (hsorted i j hi (by omega) (by omega)) hjx

theorem insertionSortFrom_spec {α : Type} [Inhabited α] (less : α → α → Bool)
    (htot : ∀ x y, less x y = true ∨ less y x = true)
    (htr : ∀ x y z, less x y = true → less y z = true → less x z = true)
    (a b : Nat) :
    ∀ (n i : Nat) (l : List α), a ≤ i → i + n = b → b ≤ l.length → SortedSeg less a i l →
      Shuffled a b l (insertionSortFrom less a n i l) ∧
        SortedSeg less a b (insertionSortFrom less a n i l) := by
  intro n
  induction n with
  | zero =>
    intro i l _ hin _ hs
    have : i = b := by omega
    subst this
    exact ⟨Shuffled.refl _ _ _, hs⟩
  | succ n ih =>
    intro i l hai hin hb hs
    rw [insertionSortFrom]
    obtain ⟨hsh, hso⟩ := shiftLeft_spec less htot htr a a (le_refl _) i l hai (by omega) hs
      (Or.inl rfl)
    obtain ⟨hsh2, hso2⟩ := ih (i + 1) (shiftLeft less a i l) (by omega) (by omega)
      (by rw [hsh.length_eq]; exact hb) hso
    exact ⟨(hsh.widen (le_refl _) (by omega)).trans hsh2, hso2⟩

theorem insertionSort_func_spec {α : Type} [Inhabited α] (less : α → α → Bool)
    (htot : ∀ x y, less x y = true ∨ less y x = true)
    (htr : ∀ x y z, less x y = true → less y z = true → less x z = true)
    (a b : Nat) (l : List α) (hb : b ≤ l.length) :
    Shuffled a b l (insertionSort_func less l a b) ∧
      SortedSeg less a b (insertionSort_func less l a b) := by
  unfold insertionSort_func
  by_cases hab : a + 1 ≤ b
  · exact insertionSortFrom_spec less htot htr a b (b - (a + 1)) (a + 1) l (by omega) (by omega)
      hb (fun i j h1 h2 h3 => by omega)
  · have : b - (a + 1) = 0 := by omega
    rw [this, insertionSortFrom]
    exact ⟨Shuffled.refl _ _ _, fun i j h1 h2 h3 => by omega⟩

theorem scanUp_spec (test : Nat → Bool) (j : Nat) :
    ∀ (n i : Nat), j + 1 - i ≤ n → i ≤ j + 1 →
      i ≤ scanUp test j n i ∧ scanUp test j n i ≤ j + 1 ∧
      (∀ k, i ≤ k → k < scanUp test j n i → test k = true) ∧
      (scanUp test j n i ≤ j → test (scanUp test j n i) = false) := by
  intro n
  induction n with
  | zero =>
    intro i hn hi
    rw [scanUp]
    exact ⟨le_refl _, hi, fun k h1 h2 => by omega, fun h => by omega⟩
  | succ n ih =>
    intro i hn hi
    rw [scanUp]
    split_ifs with hc
    · obtain ⟨h1, h2, h3, h4⟩ := ih (i + 1) (by omega) (by omega)
      refine ⟨by omega, h2, ?_, h4⟩
      intro k hk1 hk2
      by_cases hki : k = i
      · rw [hki]
        exact hc.2
      · exact h3 k (by omega) hk2
    · refine ⟨le_refl _, hi, fun k h1 h2 => by omega, ?_⟩
      intro hij
      by_contra hne
      exact hc ⟨hij, by simpa using hne⟩

theorem scanDown_spec (test : Nat → Bool) (i : Nat) (hi1 : 1 ≤ i) :
    ∀ (j : Nat), i ≤ j + 1 →
      scanDown test i j ≤ j ∧ i ≤ scanDown test i j + 1 ∧
      (∀ k, scanDown test i j < k → k ≤ j → test k = true) ∧
      (i ≤ scanDown test i j → test (scanDown test i j) = false) := by
  intro j
  induction j with
  | zero =>
    intro hi
    rw [scanDown]
    exact ⟨le_refl _, by omega, fun k h1 h2 => by omega, fun h => by omega⟩
  | succ j ih =>
    intro hi
    rw [scanDown]
    split_ifs with hc
    · obtain ⟨h1, h2, h3, h4⟩ := ih (by omega)
      refine ⟨by omega, h2, ?_, h4⟩
      intro k hk1 hk2
      by_cases hkj : k = j + 1
      · rw [hkj]
        exact hc.2
      · exact h3 k hk1 (by omega)
    · refine ⟨le_refl _, by omega, fun k h1 h2 => by omega, ?_⟩
      intro hij
      by_contra hne
      exact hc ⟨hij, by simpa using hne⟩

theorem partitionLoop_spec {α : Type} [Inhabited α] (less : α → α → Bool) (a b : Nat) :
    ∀ (n : Nat) (l : List α) (i j : Nat), a + 1 ≤ i → i ≤ j + 1 → j < b → b ≤ l.length →
      j + 1 - i ≤ n →
      (∀ k, a + 1 ≤ k → k < i → less (l.getD k default) (l.getD a default) = true) →
      (∀ k, j < k → k < b → less (l.getD k default) (l.getD a default) = false) →
      Shuffled (a + 1) b l (partitionLoop less a n l i j).1 ∧
        a ≤ (partitionLoop less a n l i j).2 ∧ (partitionLoop less a n l i j).2 < b ∧
        (∀ k, a + 1 ≤ k → k ≤ (partitionLoop less a n l i j).2 →
          less ((partitionLoop less a n l i j).1.getD k default)
            ((partitionLoop less a n l i j).1.getD a default) = true) ∧
        (∀ k, (partitionLoop less a n l i j).2 < k → k < b →
          less ((partitionLoop less a n l i j).1.getD k default)
            ((partitionLoop less a n l i j).1.getD a default) = false) := by
  intro n
  induction n with
  | zero =>
    intro l i j hai hij hjb hbl hn hlo hhi
    rw [partitionLoop]
    exact ⟨Shuffled.refl _ _ _, by omega, hjb, fun k h1 h2 => hlo k h1 (by omega), hhi⟩
  | succ n ih =>
    intro l i j hai hij hjb hbl hn hlo hhi
    rw [partitionLoop]
    obtain ⟨hu1, hu2, hu3, hu4⟩ := scanUp_spec (fun k => lessAt less l k a) j (j + 1 - i) i
      (le_refl _) hij
    generalize scanUp (fun k => lessAt less l k a) j (j + 1 - i) i = i1 at *
    obtain ⟨hd1, hd2, hd3, hd4⟩ := scanDown_spec (fun k => !lessAt less l k a) i1 (by omega) j hu2
    generalize scanDown (fun k => !lessAt less l k a) i1 j = j1 at *
    have hlo1 : ∀ k, a + 1 ≤ k → k < i1 → less (l.getD k default) (l.getD a default) = true := by
      intro k h1 h2
      by_cases hk : k < i
      · exact hlo k h1 hk
      · exact hu3 k (by omega) h2
    have hhi1 : ∀ k, j1 < k → k < b → less (l.getD k default) (l.getD a default) = false := by
      intro k h1 h2
      by_cases hk : j < k
      · exact hhi k hk h2
      · have := hd3 k h1 (by omega)
        simpa [lessAt] using this
    split_ifs with hc
    · exact ⟨Shuffled.refl _ _ _, by omega, by omega, fun k h1 h2 => hlo1 k h1 (by omega), hhi1⟩
    · have hi1j1 : i1 ≤ j1 := by omega
      have hti : less (l.getD i1 default) (l.getD a default) = false := by
        have := hu4 (by omega)
        simpa [lessAt] using this
      have htj : less (l.getD j1 default) (l.getD a default) = true := by
        have := hd4 hi1j1
        simpa [lessAt] using this
      have hne : i1 ≠ j1 := by
        intro h
        rw [h, htj] at hti
        exact absurd hti (by simp)
      have hi1l : i1 < l.length := by omega
      have hj1l : j1 < l.length := by omega
      have hget := getD_swapAt l i1 j1
      have hsw : Shuffled (a + 1) b l (swapAt l i1 j1) :=
        shuffled_swapAt _ _ l i1 j1 (by omega) (by omega) (by omega) (by omega) hbl
      have ha : (swapAt l i1 j1).getD a default = l.getD a default := hsw.frame a (by omega)
      obtain ⟨r1, r2, r3, r4, r5⟩ := ih (swapAt l i1 j1) (i1 + 1) (j1 - 1) (by omega) (by omega)
        (by omega) (by rw [length_swapAt]; exact hbl) (by omega)
        (by
          intro k h1 h2
          rw [ha, hget k hi1l hj1l]
          split_ifs with h3 h4
          · omega
          · exact htj
          · exact hlo1 k h1 (by omega))
        (by
          intro k h1 h2
          rw [ha, hget k hi1l hj1l]
          split_ifs with h3 h4
          · exact hti
          · omega
          · exact hhi1 k (by omega) h2)
      exact ⟨hsw.trans r1, r2, r3, r4, r5⟩

theorem partition_func_eq {α : Type} [Inhabited α] (less : α → α → Bool) (l : List α) (a b pivot : Nat) :
    (partition_func less l a b pivot).1 =
        swapAt (partitionLoop less a (b - a + 1) (swapAt l a pivot) (a + 1) (b - 1)).1
          (partitionLoop less a (b - a + 1) (swapAt l a pivot) (a + 1) (b - 1)).2 a ∧
      (partition_func less l a b pivot).2.1 =
        (partitionLoop less a (b - a + 1) (swapAt l a pivot) (a + 1) (b - 1)).2 := by
  unfold partition_func
  rw [partitionLoop]
  simp only
  split_ifs <;> exact ⟨rfl, rfl⟩

theorem partition_func_spec {α : Type} [Inhabited α] (less : α → α → Bool) (l : List α) (a b pivot : Nat)
    (hab : a < b) (hbl : b ≤ l.length) (hpa : a ≤ pivot) (hpb : pivot < b) :
    Shuffled a b l (partition_func less l a b pivot).1 ∧
      a ≤ (partition_func less l a b pivot).2.1 ∧ (partition_func less l a b pivot).2.1 < b ∧
      (∀ k, a ≤ k → k < (partition_func less l a b pivot).2.1 →
        less ((partition_func less l a b pivot).1.getD k default)
          ((partition_func less l a b pivot).1.getD
            (partition_func less l a b pivot).2.1 default) = true) ∧
      (∀ k, (partition_func less l a b pivot).2.1 < k → k < b →
        less ((partition_func less l a b pivot).1.getD k default)
          ((partition_func less l a b pivot).1.getD
            (partition_func less l a b pivot).2.1 default) = false) := by
  obtain ⟨e1, e2⟩ := partition_func_eq less l a b pivot
  rw [e1, e2]
  have hsw : Shuffled a b l (swapAt l a pivot) :=
    shuffled_swapAt _ _ l a pivot (le_refl _) hab hpa hpb hbl
  obtain ⟨r1, r2, r3, r4, r5⟩ := partitionLoop_spec less a b (b - a + 1) (swapAt l a pivot)
    (a + 1) (b - 1) (le_refl _) (by omega) (by omega) (by rw [length_swapAt]; exact hbl)
    (by omega) (fun k h1 h2 => by omega) (fun k h1 h2 => by omega)
  generalize partitionLoop less a (b - a + 1) (swapAt l a pivot) (a + 1) (b - 1) = r at *
  have hrl : r.1.length = l.length := by rw [r1.length_eq, length_swapAt]
  have hget := getD_swapAt r.1 r.2 a
  have hsw2 : Shuffled a b r.1 (swapAt r.1 r.2 a) :=
    shuffled_swapAt _ _ r.1 r.2 a r2 r3 (le_refl _) hab (by omega)
  have hr2l : r.2 < r.1.length := by omega
  have hal : a < r.1.length := by omega
  have hmid : (swapAt r.1 r.2 a).getD r.2 default = r.1.getD a default := by
    rw [hget r.2 hr2l hal]
    split_ifs with h h2
    · rw [h]
    · rfl
    · exact absurd rfl h2
  refine ⟨hsw.trans ((r1.widen (by omega) (le_refl _)).trans hsw2), r2, r3, ?_, ?_⟩
  · intro k h1 h2
    rw [hmid, hget k hr2l hal]
    split_ifs with h3 h4
    · exact r4 r.2 (by omega) (le_refl _)
    · omega
    · exact r4 k (by omega) (by omega)
  · intro k h1 h2
    rw [hmid, hget k hr2l hal, if_neg (by omega), if_neg (by omega)]
    exact r5 k h1 h2

theorem siftDown_func_spec {α : Type} [Inhabited α] (less : α → α → Bool)
    (htot : ∀ x y, less x y = true ∨ less y x = true)
    (htr : ∀ x y z, less x y = true → less y z = true → less x z = true)
    (hi first lo : Nat) :
    ∀ (n root : Nat) (l : List α), lo ≤ root → hi - root ≤ n → first + hi ≤ l.length →
      (∀ p c, lo ≤ p → p ≠ root → c < hi → (c = 2 * p + 1 ∨ c = 2 * p + 2) →
        less (l.getD (first + c) default) (l.getD (first + p) default) = true) →
      (∀ q c, lo ≤ q → (root = 2 * q + 1 ∨ root = 2 * q + 2) → c < hi →
        (c = 2 * root + 1 ∨ c = 2 * root + 2) →
        less (l.getD (first + c) default) (l.getD (first + q) default) = true) →
      Shuffled (first + root) (first + hi) l (siftDown_func less hi first n root l) ∧
        HeapFrom less first lo hi (siftDown_func less hi first n root l) := by
  intro n
  induction n with
  | zero =>
    intro root l hlo hn hlen h1 h2
    rw [siftDown_func]
    refine ⟨Shuffled.refl _ _ _, ?_⟩
    intro p c hp hc hpc
    by_cases hpr : p = root
    · omega
    · exact h1 p c hp hpr hc hpc
  | succ n ih =>
    intro root l hlo hn hlen h1 h2
    rw [siftDown_func]
    by_cases hnochild : 2 * root + 1 ≥ hi
    · rw [if_pos hnochild]
      refine ⟨Shuffled.refl _ _ _, ?_⟩
      intro p c hp hc hpc
      by_cases hpr : p = root
      · omega
      · exact h1 p c hp hpr hc hpc
    · rw [if_neg hnochild]
      have hrefl : ∀ x : α, less x x = true := fun x => by
        rcases htot x x with h | h <;> exact h
      have hpick : ∃ c, (if 2 * root + 1 + 1 < hi ∧
            lessAt less l (first + (2 * root + 1)) (first + (2 * root + 1) + 1) = true then
          2 * root + 1 + 1 else 2 * root + 1) = c ∧ c < hi ∧
          (c = 2 * root + 1 ∨ c = 2 * root + 2) ∧
          ∀ c', c' < hi → (c' = 2 * root + 1 ∨ c' = 2 * root + 2) →
            less (l.getD (first + c') default) (l.getD (first + c) default) = true := by
        split_ifs with hc
        · refine ⟨_, rfl, hc.1, Or.inr rfl, ?_⟩
          intro c' hc' hcc
          rcases hcc with h | h
          · rw [h]
            exact hc.2
          · rw [h]
            exact hrefl _
        · refine ⟨_, rfl, by omega, Or.inl rfl, ?_⟩
          intro c' hc' hcc
          rcases hcc with h | h
          · rw [h]
            exact hrefl _
          · rw [h]
            have hlt : 2 * root + 1 + 1 < hi := by omega
            have hnl : lessAt less l (first + (2 * root + 1)) (first + (2 * root + 1) + 1) =
                false := by
              by_contra hne
              exact hc ⟨hlt, by simpa using hne⟩
            unfold lessAt at hnl
            rcases htot (l.getD (first + (2 * root + 1)) default)
              (l.getD (first + (2 * root + 1) + 1) default) with h3 | h3
            · rw [hnl] at h3
              exact absurd h3 (by simp)
            · exact h3
      obtain ⟨c, hce, hchi, hcr, hdom⟩ := hpick
      simp only [hce]
      by_cases hstop : lessAt less l (first + root) (first + c) = false
      · rw [if_pos hstop]
        refine ⟨Shuffled.refl _ _ _, ?_⟩
        intro p c' hp hc' hpc
        by_cases hpr : p = root
        · subst hpr
          have hcroot : less (l.getD (first + c) default) (l.getD (first + p) default) = true := by
            unfold lessAt at hstop
            rcases htot (l.getD (first + c) default) (l.getD (first + p) default) with h3 | h3
            · exact h3
            · rw [hstop] at h3
              exact absurd h3 (by simp)
          exact htr _ _ _ (hdom c' hc' hpc) hcroot
        · exact h1 p c' hp hpr hc' hpc
      · rw [if_neg hstop]
        have hless : less (l.getD (first + root) default) (l.getD (first + c) default) = true := by
          unfold lessAt at hstop
          simpa using hstop
        have hrl : first + root < l.length := by omega
        have hcl : first + c < l.length := by omega
        have hget := getD_swapAt l (first + root) (first + c)
        have hcgt : root < c := by omega
        have hroot1 : (swapAt l (first + root) (first + c)).getD (first + root) default =
            l.getD (first + c) default := by
          rw [hget _ hrl hcl, if_neg (by omega), if_pos rfl]
        have hc1 : (swapAt l (first + root) (first + c)).getD (first + c) default =
            l.getD (first + root) default := by
          rw [hget _ hrl hcl, if_pos rfl]
        have hother : ∀ k, k ≠ root → k ≠ c →
            (swapAt l (first + root) (first + c)).getD (first + k) default =
              l.getD (first + k) default := by
          intro k hk1 hk2
          rw [hget _ hrl hcl, if_neg (by omega), if_neg (by omega)]
        have hsw : Shuffled (first + root) (first + hi) l (swapAt l (first + root) (first + c)) :=
          shuffled_swapAt _ _ l _ _ (le_refl _) (by omega) (by omega) (by omega) hlen
        obtain ⟨r1, r2⟩ := ih c (swapAt l (first + root) (first + c)) (by omega) (by omega)
          (by rw [length_swapAt]; exact hlen)
          (by
            intro p c' hp hpc hc' hpc'
            by_cases hpr : p = root
            · subst hpr
              rw [hroot1]
              by_cases hcc : c' = c
              · rw [hcc, hc1]
                exact hless
              · rw [hother c' (by omega) hcc]
                exact hdom c' hc' hpc'
            · rw [hother p hpr hpc]
              by_cases hcr2 : c' = root
              · rw [hcr2, hroot1]
                exact h2 p c hp (by omega) hchi hcr
              · have hcc : c' ≠ c := by omega
                rw [hother c' hcr2 hcc]
                exact h1 p c' hp hpr hc' hpc')
          (by
            intro q g hq hcq hg hgc
            have hqr : q = root := by omega
            subst hqr
            rw [hroot1, hother g (by omega) (by omega)]
            exact h1 c g (by omega) (by omega) hg hgc)
        exact ⟨hsw.trans (r1.widen (by omega) (le_refl _)), r2⟩

theorem heapBuild_spec {α : Type} [Inhabited α] (less : α → α → Bool)
    (htot : ∀ x y, less x y = true ∨ less y x = true)
    (htr : ∀ x y z, less x y = true → less y z = true → less x z = true)
    (hi first : Nat) :
    ∀ (m : Nat) (l : List α), first + hi ≤ l.length → HeapFrom less first m hi l →
      Shuffled first (first + hi) l (heapBuild less hi first m l) ∧
        HeapFrom less first 0 hi (heapBuild less hi first m l) := by
  intro m
  induction m with
  | zero =>
    intro l _ h
    rw [heapBuild]
    exact ⟨Shuffled.refl _ _ _, h⟩
  | succ i ih =>
    intro l hlen h
    rw [heapBuild]
    obtain ⟨r1, r2⟩ := siftDown_func_spec less htot htr hi first i (hi - i) i l (le_refl _)
      (le_refl _) hlen (fun p c hp hpr hc hpc => h p c (by omega) hc hpc)
      (fun q c hq hcq hc hpc => by omega)
    obtain ⟨r3, r4⟩ := ih (siftDown_func less hi first (hi - i) i l)
      (by rw [r1.length_eq]; exact hlen) r2
    exact ⟨(r1.widen (by omega) (le_refl _)).trans r3, r4⟩

theorem heap_root_max {α : Type} [Inhabited α] (less : α → α → Bool)
    (htot : ∀ x y, less x y = true ∨ less y x = true)
    (htr : ∀ x y z, less x y = true → less y z = true → less x z = true)
    (hi first : Nat) (l : List α) (h : HeapFrom less first 0 hi l) :
    ∀ k, k < hi → less (l.getD (first + k) default) (l.getD (first + 0) default) = true := by
  intro k
  induction k using Nat.strong_induction_on with
  | _ k ih =>
    intro hk
    by_cases hk0 : k = 0
    · subst hk0
      rcases htot (l.getD (first + 0) default) (l.getD (first + 0) default) with h3 | h3 <;>
        exact h3
    · have hp : k = 2 * ((k - 1) / 2) + 1 ∨ k = 2 * ((k - 1) / 2) + 2 := by omega
      exact htr _ _ _ (h ((k - 1) / 2) k (Nat.zero_le _) hk hp)
        (ih ((k - 1) / 2) (by omega) (by omega))

theorem heapPop_spec {α : Type} [Inhabited α] (less : α → α → Bool)
    (htot : ∀ x y, less x y = true ∨ less y x = true)
    (htr : ∀ x y z, less x y = true → less y z = true → less x z = true)
    (hi first : Nat) :
    ∀ (i : Nat) (l : List α), i ≤ hi → first + hi ≤ l.length → HeapFrom less first 0 i l →
      SortedSeg less (first + i) (first + hi) l →
      (∀ k m, k < i → i ≤ m → m < hi →
        less (l.getD (first + k) default) (l.getD (first + m) default) = true) →
      Shuffled first (first + hi) l (heapPop less first i l) ∧
        SortedSeg less first (first + hi) (heapPop less first i l) := by
  intro i
  induction i with
  | zero =>
    intro l _ _ _ hs _
    rw [heapPop]
    exact ⟨Shuffled.refl _ _ _, by simpa using hs⟩
  | succ i ih =>
    intro l hi1 hlen hheap hs hdom
    rw [heapPop]
    have hmax := heap_root_max less htot htr (i + 1) first l hheap
    have hfl : first < l.length := by omega
    have hil : first + i < l.length := by omega
    have hget := getD_swapAt l first (first + i) 
    have hsw : Shuffled first (first + hi) l (swapAt l first (first + i)) :=
      shuffled_swapAt _ _ l _ _ (le_refl _) (by omega) (by omega) (by omega) hlen
    have hother : ∀ k, k ≠ 0 → k ≠ i →
        (swapAt l first (first + i)).getD (first + k) default = l.getD (first + k) default := by
      intro k hk1 hk2
      rw [hget _ hfl hil, if_neg (by omega), if_neg (by omega)]
    have hati : (swapAt l first (first + i)).getD (first + i) default =
        l.getD (first + 0) default := by
      rw [hget _ hfl hil, if_pos rfl]
      rfl
    have hin : ∀ k, k < i → ∃ k', k' < i + 1 ∧
        (swapAt l first (first + i)).getD (first + k) default = l.getD (first + k') default := by
      intro k hk
      rw [hget _ hfl hil, if_neg (by omega)]
      split_ifs with h
      · exact ⟨i, by omega, rfl⟩
      · exact ⟨k, by omega, rfl⟩
    obtain ⟨r1, r2⟩ := siftDown_func_spec less htot htr i first 0 i 0
      (swapAt l first (first + i)) (le_refl _) (by omega) (by rw [length_swapAt]; omega)
      (by
        intro p c hp hpr hc hpc
        rw [hother c (by omega) (by omega), hother p hpr (by omega)]
        exact hheap p c hp (by omega) hpc)
      (fun q c hq hcq hc hpc => by omega)
    have r1' : Shuffled first (first + i) (swapAt l first (first + i))
        (siftDown_func less i first i 0 (swapAt l first (first + i))) := by
      simpa using r1
    obtain ⟨r3, r4⟩ := ih (siftDown_func less i first i 0 (swapAt l first (first + i)))
      (by omega) (by rw [r1'.length_eq, length_swapAt]; exact hlen) r2
      (by
        intro x y hx hxy hy
        rw [r1'.frame x (by omega), r1'.frame y (by omega)]
        have hy2 : (swapAt l first (first + i)).getD y default = l.getD y default := by
          have := hother (y - first) (by omega) (by omega)
          rwa [show first + (y - first) = y by omega] at this
        rw [hy2]
        by_cases hxi : x = first + i
        · rw [hxi, hati]
          have h := hdom 0 (y - first) (by omega) (by omega) (by omega)
          rw [show first + (y - first) = y by omega] at h
          exact h
        · have hx2 : (swapAt l first (first + i)).getD x default = l.getD x default := by
            have := hother (x - first) (by omega) (by omega)
            rwa [show first + (x - first) = x by omega] at this
          rw [hx2]
          exact hs x y (by omega) hxy hy)
      (by
        intro k m hk hm1 hm2
        obtain ⟨k1, hk1a, hk1b, hk1e⟩ := r1'.seg (first + k) (by omega) (by omega)
        rw [hk1e, r1'.frame (first + m) (by omega)]
        obtain ⟨k2, hk2a, hk2e⟩ := hin (k1 - first) (by omega)
        rw [show first + (k1 - first) = k1 by omega] at hk2e
        rw [hk2e]
        by_cases hmi : m = i
        · rw [hmi, hati]
          exact hmax k2 hk2a
        · rw [hother m (by omega) hmi]
          exact hdom k2 m hk2a (by omega) hm2)
    exact ⟨hsw.trans ((r1'.widen (le_refl _) (by omega)).trans r3), r4⟩

theorem heapSort_func_spec {α : Type} [Inhabited α] (less : α → α → Bool)
    (htot : ∀ x y, less x y = true ∨ less y x = true)
    (htr : ∀ x y z, less x y = true → less y z = true → less x z = true)
    (a b : Nat) (l : List α) (hab : a ≤ b) (hb : b ≤ l.length) :
    Shuffled a b l (heapSort_func less l a b) ∧
      SortedSeg less a b (heapSort_func less l a b) := by
  unfold heapSort_func
  have hab2 : a + (b - a) = b := by omega
  obtain ⟨r1, r2⟩ := heapBuild_spec less htot htr (b - a) a ((b - a - 1) / 2 + 1) l
    (by omega) (fun p c hp hc hpc => by omega)
  obtain ⟨r3, r4⟩ := heapPop_spec less htot htr (b - a) a (b - a)
    (heapBuild less (b - a) a ((b - a - 1) / 2 + 1) l) (le_refl _)
    (by rw [r1.length_eq]; omega) r2 (fun i j h1 h2 h3 => by omega)
    (fun k m h1 h2 h3 => by omega)
  rw [hab2] at r1 r3 r4
  exact ⟨r1.trans r3, r4⟩

theorem PredBelow.of_shuffled {α : Type} [Inhabited α] {less : α → α → Bool} {a b : Nat} {l l' : List α}
    (h : PredBelow less a b l) (hs : Shuffled a b l l') : PredBelow less a b l' := by
  rcases h with h | h
  · exact Or.inl h
  · by_cases ha : a = 0
    · exact Or.inl ha
    · right
      intro k h1 h2
      rw [hs.frame (a - 1) (by omega)]
      exact hs.forall_seg (fun x => less x (l.getD (a - 1) default) = false) h k h1 h2

theorem PredBelow.shorten {α : Type} [Inhabited α] {less : α → α → Bool} {a b b' : Nat} {l : List α}
    (h : PredBelow less a b l) (hb : b' ≤ b) : PredBelow less a b' l := by
  rcases h with h | h
  · exact Or.inl h
  · exact Or.inr (fun k h1 h2 => h k h1 (by omega))

theorem SortedSeg.extend {α : Type} [Inhabited α] (less : α → α → Bool)
    (htr : ∀ x y z, less x y = true → less y z = true → less x z = true)
    (a : Nat) (l : List α) :
    ∀ (d i : Nat), a + 1 ≤ i → SortedSeg less a i l →
      (∀ k, i ≤ k → k < i + d → less (l.getD (k - 1) default) (l.getD k default) = true) →
      SortedSeg less a (i + d) l := by
  intro d
  induction d with
  | zero =>
    intro i _ hs _
    exact hs
  | succ d ih =>
    intro i hai hs hstep
    have h1 : SortedSeg less a (i + 1) l := by
      intro x y hx hxy hy
      by_cases hyi : y < i
      · exact hs x y hx hxy hyi
      · have hyi2 : y = i := by omega
        subst hyi2
        have hlast := hstep y (le_refl _) (by omega)
        by_cases hxy2 : x = y - 1
        · rw [hxy2]
          exact hlast
        · exact htr _ _ _ (hs x (y - 1) hx (by omega) (by omega)) hlast
    have := ih (i + 1) (by omega) h1 (fun k hk1 hk2 => hstep k (by omega) (by omega))
    rwa [show i + 1 + d = i + (d + 1) by omega] at this

theorem shiftRight_shuffled {α : Type} [Inhabited α] (less : α → α → Bool) (lo b : Nat) :
    ∀ (n j : Nat) (l : List α), lo + 1 ≤ j → j + n ≤ b → b ≤ l.length →
      Shuffled lo b l (shiftRight less n j l) := by
  intro n
  induction n with
  | zero =>
    intro j l _ _ _
    rw [shiftRight]
    exact Shuffled.refl _ _ _
  | succ n ih =>
    intro j l hj hn hb
    rw [shiftRight]
    split_ifs with hc
    · exact Shuffled.refl _ _ _
    · have hsw : Shuffled lo b l (swapAt l j (j - 1)) :=
        shuffled_swapAt _ _ l _ _ (by omega) (by omega) (by omega) (by omega) hb
      exact hsw.trans (ih (j + 1) _ (by omega) (by omega) (by rw [length_swapAt]; exact hb))

theorem partialInsertionSortFrom_spec {α : Type} [Inhabited α] (less : α → α → Bool)
    (htot : ∀ x y, less x y = true ∨ less y x = true)
    (htr : ∀ x y z, less x y = true → less y z = true → less x z = true)
    (a b : Nat) :
    ∀ (steps i : Nat) (l : List α), a + 1 ≤ i → i ≤ b → b ≤ l.length →
      SortedSeg less a i l → PredBelow less a b l →
      Shuffled a b l (partialInsertionSortFrom less a b steps i l).1 ∧
        ((partialInsertionSortFrom less a b steps i l).2 = true →
          SortedSeg less a b (partialInsertionSortFrom less a b steps i l).1) := by
  intro steps
  induction steps with
  | zero =>
    intro i l _ _ _ _ _
    rw [partialInsertionSortFrom]
    exact ⟨Shuffled.refl _ _ _, fun h => absurd h (by simp)⟩
  | succ steps ih =>
    intro i l hai hib hbl hs hpred
    rw [partialInsertionSortFrom]
    obtain ⟨hu1, hu2, hu3, hu4⟩ := scanUp_spec (fun k => !lessAt less l k (k - 1)) (b - 1)
      (b - i) i (by omega) (by omega)
    generalize scanUp (fun k => !lessAt less l k (k - 1)) (b - 1) (b - i) i = i1 at *
    have hs1 : SortedSeg less a i1 l := by
      have := SortedSeg.extend less htr a l (i1 - i) i hai hs (by
        intro k hk1 hk2
        have ht := hu3 k hk1 (by omega)
        have hf : less (l.getD k default) (l.getD (k - 1) default) = false := by
          simpa [lessAt] using ht
        rcases htot (l.getD (k - 1) default) (l.getD k default) with h | h
        · exact h
        · rw [hf] at h
          exact absurd h (by simp))
      rwa [show i + (i1 - i) = i1 by omega] at this
    simp only
    by_cases hend : i1 = b
    · rw [if_pos hend]
      exact ⟨Shuffled.refl _ _ _, fun _ => by rw [← hend]; exact hs1⟩
    rw [if_neg hend]
    by_cases hshort : b - a < 50
    · rw [if_pos hshort]
      exact ⟨Shuffled.refl _ _ _, fun h => absurd h (by simp)⟩
    rw [if_neg hshort]
    have hi1b : i1 < b := by omega
    have hi1l : i1 < l.length := by omega
    have hget := getD_swapAt l i1 (i1 - 1) 
    have hsw : Shuffled a b l (swapAt l i1 (i1 - 1)) :=
      shuffled_swapAt _ _ l _ _ (by omega) hi1b (by omega) (by omega) hbl
    have hpred1 : PredBelow less a b (swapAt l i1 (i1 - 1)) := hpred.of_shuffled hsw
    have hd2 : ∃ d2, (if i1 - a ≥ 2 then shiftLeft less 0 (i1 - 1) (swapAt l i1 (i1 - 1))
        else swapAt l i1 (i1 - 1)) = d2 ∧ Shuffled a i1 (swapAt l i1 (i1 - 1)) d2 ∧
        SortedSeg less a i1 d2 := by
      split_ifs with h2
      · obtain ⟨r1, r2⟩ := shiftLeft_spec less htot htr 0 a (Nat.zero_le _) (i1 - 1)
          (swapAt l i1 (i1 - 1)) (by omega) (by rw [length_swapAt]; omega)
          (by
            intro x y hx hxy hy
            rw [hget x hi1l (by omega), hget y hi1l (by omega), if_neg (by omega),
              if_neg (by omega), if_neg (by omega), if_neg (by omega)]
            exact hs1 x y hx hxy (by omega))
          (by
            rcases hpred1 with h | h
            · exact Or.inl h
            · exact Or.inr (h (i1 - 1) (by omega) (by omega)))
        rw [show i1 - 1 + 1 = i1 by omega] at r1 r2
        exact ⟨_, rfl, r1, r2⟩
      · exact ⟨_, rfl, Shuffled.refl _ _ _, fun x y hx hxy hy => by omega⟩
    obtain ⟨d2, hd2e, hd2s, hd2o⟩ := hd2
    rw [hd2e]
    have hd2l : d2.length = l.length := by rw [hd2s.length_eq, length_swapAt]
    have hd3 : ∃ d3, (if b - i1 ≥ 2 then shiftRight less (b - (i1 + 1)) (i1 + 1) d2 else d2) = d3 ∧
        Shuffled i1 b d2 d3 := by
      split_ifs with h3
      · exact ⟨_, rfl, shiftRight_shuffled less i1 b _ _ d2 (le_refl _) (by omega) (by omega)⟩
      · exact ⟨_, rfl, Shuffled.refl _ _ _⟩
    obtain ⟨d3, hd3e, hd3s⟩ := hd3
    rw [hd3e]
    have hall : Shuffled a b l d3 :=
      hsw.trans ((hd2s.widen (le_refl _) (by omega)).trans (hd3s.widen (by omega) (le_refl _)))
    obtain ⟨r1, r2⟩ := ih i1 d3 (by omega) (by omega) (by rw [hall.length_eq]; exact hbl)
      (hd2o.of_frame (fun k hk1 hk2 => hd3s.frame k (by omega))) (hpred.of_shuffled hall)
    exact ⟨hall.trans r1, r2⟩

theorem partialInsertionSort_func_spec {α : Type} [Inhabited α] (less : α → α → Bool)
    (htot : ∀ x y, less x y = true ∨ less y x = true)
    (htr : ∀ x y z, less x y = true → less y z = true → less x z = true)
    (a b : Nat) (l : List α) (hab : a < b) (hbl : b ≤ l.length)
    (hpred : PredBelow less a b l) :
    Shuffled a b l (partialInsertionSort_func less l a b).1 ∧
      ((partialInsertionSort_func less l a b).2 = true →
        SortedSeg less a b (partialInsertionSort_func less l a b).1) :=
  partialInsertionSortFrom_spec less htot htr a b 5 (a + 1) l (le_refl _) (by omega) hbl
    (fun x y hx hxy hy => by omega) hpred

theorem bitsLenFrom_zero (n : Nat) : bitsLenFrom n 0 = 0 := by
  cases n <;> simp [bitsLenFrom]

theorem two_pow_bitsLenFrom_le :
    ∀ (n x : Nat), x ≤ n → 1 ≤ x → 2 ^ bitsLenFrom n x ≤ 2 * x := by
  intro n
  induction n with
  | zero =>
    intro x h1 h2
    omega
  | succ n ih =>
    intro x h1 h2
    rw [bitsLenFrom, if_neg (by omega), pow_succ]
    by_cases hx : x / 2 = 0
    · rw [hx, bitsLenFrom_zero]
      omega
    · have := ih (x / 2) (by omega) (by omega)
      omega

theorem breakIndex_lt (length r : Nat) (h : 1 ≤ length) : breakIndex length r < length := by
  unfold breakIndex
  have h1 : 2 ^ bitsLen length ≤ 2 * length := two_pow_bitsLenFrom_le length length (le_refl _) h
  have h2 : r % 2 ^ bitsLen length < 2 ^ bitsLen length := Nat.mod_lt _ (by positivity)
  split_ifs <;> omega

theorem breakPatterns_func_shuffled {α : Type} [Inhabited α] (next : Nat → Nat) (l : List α) (a b : Nat)
    (hb : b ≤ l.length) : Shuffled a b l (breakPatterns_func next l a b) := by
  unfold breakPatterns_func
  split_ifs with h
  · simp only
    have h1 := breakIndex_lt (b - a) (next (b - a)) (by omega)
    have h2 := breakIndex_lt (b - a) (next (next (b - a))) (by omega)
    have h3 := breakIndex_lt (b - a) (next (next (next (b - a)))) (by omega)
    have s1 : Shuffled a b l
        (swapAt l (a + (b - a) / 4 * 2 - 1 - 1 + 0) (a + breakIndex (b - a) (next (b - a)))) :=
      shuffled_swapAt _ _ l _ _ (by omega) (by omega) (by omega) (by omega) hb
    have s2 := shuffled_swapAt a b
      (swapAt l (a + (b - a) / 4 * 2 - 1 - 1 + 0) (a + breakIndex (b - a) (next (b - a))))
      (a + (b - a) / 4 * 2 - 1 - 1 + 1) (a + breakIndex (b - a) (next (next (b - a))))
      (by omega) (by omega) (by omega) (by omega) (by rw [length_swapAt]; exact hb)
    have s3 := shuffled_swapAt a b
      (swapAt (swapAt l (a + (b - a) / 4 * 2 - 1 - 1 + 0)
        (a + breakIndex (b - a) (next (b - a))))
        (a + (b - a) / 4 * 2 - 1 - 1 + 1) (a + breakIndex (b - a) (next (next (b - a)))))
      (a + (b - a) / 4 * 2 - 1 - 1 + 2) (a + breakIndex (b - a) (next (next (next (b - a)))))
      (by omega) (by omega) (by omega) (by omega)
      (by rw [length_swapAt, length_swapAt]; exact hb)
    exact (s1.trans s2).trans s3
  · exact Shuffled.refl _ _ _

theorem reverseRangeFrom_shuffled {α : Type} [Inhabited α] (a b : Nat) :
    ∀ (n i j : Nat) (l : List α), a ≤ i → j < b → b ≤ l.length →
      Shuffled a b l (reverseRangeFrom n i j l) := by
  intro n
  induction n with
  | zero =>
    intro i j l _ _ _
    rw [reverseRangeFrom]
    exact Shuffled.refl _ _ _
  | succ n ih =>
    intro i j l hi hj hb
    rw [reverseRangeFrom]
    split_ifs with hc
    · have hsw : Shuffled a b l (swapAt l i j) :=
        shuffled_swapAt _ _ l _ _ hi (by omega) (by omega) hj hb
      exact hsw.trans (ih (i + 1) (j - 1) _ (by omega) (by omega)
        (by rw [length_swapAt]; exact hb))
    · exact Shuffled.refl _ _ _

theorem reverseRange_func_shuffled {α : Type} [Inhabited α] (l : List α) (a b : Nat) (hab : a < b) (hb : b ≤ l.length) :
    Shuffled a b l (reverseRange_func l a b) :=
  reverseRangeFrom_shuffled a b (b - a) a (b - 1) l (le_refl _) (by omega) hb

theorem order2_func_mem {α : Type} [Inhabited α] (less : α → α → Bool) (l : List α) (a b s : Nat) :
    ((order2_func less l a b s).1 = a ∧ (order2_func less l a b s).2.1 = b) ∨
      ((order2_func less l a b s).1 = b ∧ (order2_func less l a b s).2.1 = a) := by
  unfold order2_func
  split_ifs
  · exact Or.inr ⟨rfl, rfl⟩
  · exact Or.inl ⟨rfl, rfl⟩

theorem median_func_mem {α : Type} [Inhabited α] (less : α → α → Bool) (l : List α) (a b c s : Nat) :
    (median_func less l a b c s).1 = a ∨ (median_func less l a b c s).1 = b ∨
      (median_func less l a b c s).1 = c := by
  unfold median_func
  simp only
  have h1 := order2_func_mem less l a b s
  generalize order2_func less l a b s = r1 at *
  have h2 := order2_func_mem less l r1.2.1 c r1.2.2
  generalize order2_func less l r1.2.1 c r1.2.2 = r2 at *
  have h3 := order2_func_mem less l r1.1 r2.1 r2.2.2
  generalize order2_func less l r1.1 r2.1 r2.2.2 = r3 at *
  rcases h1 with ⟨h1a, h1b⟩ | ⟨h1a, h1b⟩ <;> rcases h2 with ⟨h2a, h2b⟩ | ⟨h2a, h2b⟩ <;>
    rcases h3 with ⟨h3a, h3b⟩ | ⟨h3a, h3b⟩ <;> simp_all

theorem choosePivot_func_range {α : Type} [Inhabited α] (less : α → α → Bool) (l : List α) (a b : Nat)
    (h : 12 < b - a) :
    a ≤ (choosePivot_func less l a b).1 ∧ (choosePivot_func less l a b).1 < b := by
  have hr : ∃ r : Nat × Nat, (if b - a ≥ 8 then
      if b - a ≥ 50 then
        median_func less l (medianAdjacent_func less l (a + (b - a) / 4 * 1) 0).1
          (medianAdjacent_func less l (a + (b - a) / 4 * 2)
            (medianAdjacent_func less l (a + (b - a) / 4 * 1) 0).2).1
          (medianAdjacent_func less l (a + (b - a) / 4 * 3)
            (medianAdjacent_func less l (a + (b - a) / 4 * 2)
              (medianAdjacent_func less l (a + (b - a) / 4 * 1) 0).2).2).1
          (medianAdjacent_func less l (a + (b - a) / 4 * 3)
            (medianAdjacent_func less l (a + (b - a) / 4 * 2)
              (medianAdjacent_func less l (a + (b - a) / 4 * 1) 0).2).2).2
      else median_func less l (a + (b - a) / 4 * 1) (a + (b - a) / 4 * 2)
        (a + (b - a) / 4 * 3) 0
      else (a + (b - a) / 4 * 2, 0)) = r ∧ a ≤ r.1 ∧ r.1 < b := by
    rw [if_pos (by omega)]
    split_ifs with h50
    · refine ⟨_, rfl, ?_⟩
      have m1 := median_func_mem less l (a + (b - a) / 4 * 1 - 1) (a + (b - a) / 4 * 1)
        (a + (b - a) / 4 * 1 + 1) 0
      have hm1 : (medianAdjacent_func less l (a + (b - a) / 4 * 1) 0) =
          median_func less l (a + (b - a) / 4 * 1 - 1) (a + (b - a) / 4 * 1)
            (a + (b - a) / 4 * 1 + 1) 0 := rfl
      rw [hm1]
      generalize median_func less l (a + (b - a) / 4 * 1 - 1) (a + (b - a) / 4 * 1)
        (a + (b - a) / 4 * 1 + 1) 0 = ri at *
      have m2 := median_func_mem less l (a + (b - a) / 4 * 2 - 1) (a + (b - a) / 4 * 2)
        (a + (b - a) / 4 * 2 + 1) ri.2
      have hm2 : (medianAdjacent_func less l (a + (b - a) / 4 * 2) ri.2) =
          median_func less l (a + (b - a) / 4 * 2 - 1) (a + (b - a) / 4 * 2)
            (a + (b - a) / 4 * 2 + 1) ri.2 := rfl
      rw [hm2]
      generalize median_func less l (a + (b - a) / 4 * 2 - 1) (a + (b - a) / 4 * 2)
        (a + (b - a) / 4 * 2 + 1) ri.2 = rj at *
      have m3 := median_func_mem less l (a + (b - a) / 4 * 3 - 1) (a + (b - a) / 4 * 3)
        (a + (b - a) / 4 * 3 + 1) rj.2
      have hm3 : (medianAdjacent_func less l (a + (b - a) / 4 * 3) rj.2) =
          median_func less l (a + (b - a) / 4 * 3 - 1) (a + (b - a) / 4 * 3)
            (a + (b - a) / 4 * 3 + 1) rj.2 := rfl
      rw [hm3]
      generalize median_func less l (a + (b - a) / 4 * 3 - 1) (a + (b - a) / 4 * 3)
        (a + (b - a) / 4 * 3 + 1) rj.2 = rk at *
      have m4 := median_func_mem less l ri.1 rj.1 rk.1 rk.2
      generalize median_func less l ri.1 rj.1 rk.1 rk.2 = rm at *
      omega
    · refine ⟨_, rfl, ?_⟩
      have m := median_func_mem less l (a + (b - a) / 4 * 1) (a + (b - a) / 4 * 2)
        (a + (b - a) / 4 * 3) 0
      generalize median_func less l (a + (b - a) / 4 * 1) (a + (b - a) / 4 * 2)
        (a + (b - a) / 4 * 3) 0 = rm at *
      omega
  obtain ⟨r, hre, hr1, hr2⟩ := hr
  unfold choosePivot_func
  simp only
  rw [hre]
  split_ifs <;> exact ⟨hr1, hr2⟩

theorem SortedSeg.join {α : Type} [Inhabited α] (less : α → α → Bool)
    (htot : ∀ x y, less x y = true ∨ less y x = true)
    (htr : ∀ x y z, less x y = true → less y z = true → less x z = true)
    (a mid b : Nat) (q : List α) (piv : α)
    (hL : ∀ k, a ≤ k → k < mid → less (q.getD k default) piv = true)
    (hM : q.getD mid default = piv)
    (hR : ∀ k, mid < k → k < b → less (q.getD k default) piv = false)
    (hsl : SortedSeg less a mid q) (hsr : SortedSeg less (mid + 1) b q) :
    SortedSeg less a b q := by
  have hR2 : ∀ k, mid < k → k < b → less piv (q.getD k default) = true := by
    intro k h1 h2
    rcases htot piv (q.getD k default) with h | h
    · exact h
    · rw [hR k h1 h2] at h
      exact absurd h (by simp)
  intro i j hi hij hj
  by_cases hjm : j < mid
  · exact hsl i j hi hij hjm
  · by_cases him : mid < i
    · exact hsr i j (by omega) hij hj
    · by_cases hjm2 : j = mid
      · rw [hjm2, hM]
        exact hL i hi (by omega)
      · by_cases him2 : i = mid
        · rw [him2, hM]
          exact hR2 j (by omega) hj
        · exact htr _ _ _ (hL i hi (by omega)) (hR2 j (by omega) hj)

theorem pdqsort_func_spec {α : Type} [Inhabited α] (less : α → α → Bool) (next : Nat → Nat)
    (htot : ∀ x y, less x y = true ∨ less y x = true)
    (htr : ∀ x y z, less x y = true → less y z = true → less x z = true) :
    ∀ (fuel : Nat) (l : List α) (a b limit : Nat) (wasBalanced wasPartitioned : Bool),
      a ≤ b → b ≤ l.length → b - a < fuel → PredBelow less a b l →
      Shuffled a b l (pdqsort_func less next fuel l a b limit wasBalanced wasPartitioned) ∧
        SortedSeg less a b
          (pdqsort_func less next fuel l a b limit wasBalanced wasPartitioned) := by
  intro fuel
  induction fuel with
  | zero =>
    intro l a b limit wb wp _ _ h _
    omega
  | succ fuel ih =>
    intro l a b limit wb wp hab hbl hfuel hpred
    rw [pdqsort_func]
    by_cases hshort : b - a ≤ 12
    · rw [if_pos hshort]
      exact insertionSort_func_spec less htot htr a b l hbl
    rw [if_neg hshort]
    by_cases hlimit : limit = 0
    · rw [if_pos hlimit]
      exact heapSort_func_spec less htot htr a b l hab hbl
    rw [if_neg hlimit]
    simp only
    -- the slice after the pattern breaking
    have hd1 : ∃ d1, (if wb = true then l else breakPatterns_func next l a b) = d1 ∧
        Shuffled a b l d1 := by
      split_ifs
      · exact ⟨_, rfl, Shuffled.refl _ _ _⟩
      · exact ⟨_, rfl, breakPatterns_func_shuffled next l a b hbl⟩
    obtain ⟨d1, hd1e, hd1s⟩ := hd1
    rw [hd1e]
    have hd1l : b ≤ d1.length := by rw [hd1s.length_eq]; exact hbl
    generalize (if wb = true then limit else limit - 1) = limit1
    obtain ⟨hc1, hc2⟩ := choosePivot_func_range less d1 a b (by omega)
    generalize choosePivot_func less d1 a b = chosen at *
    have hd2 : ∃ d2, (if chosen.2 = SortedHint.decreasingHint then reverseRange_func d1 a b
        else d1) = d2 ∧ Shuffled a b d1 d2 := by
      split_ifs
      · exact ⟨_, rfl, reverseRange_func_shuffled d1 a b (by omega) hd1l⟩
      · exact ⟨_, rfl, Shuffled.refl _ _ _⟩
    obtain ⟨d2, hd2e, hd2s⟩ := hd2
    rw [hd2e]
    have hd2l : b ≤ d2.length := by rw [hd2s.length_eq]; exact hd1l
    have hpiv : ∃ pivot, (if chosen.2 = SortedHint.decreasingHint then b - 1 - (chosen.1 - a)
        else chosen.1) = pivot ∧ a ≤ pivot ∧ pivot < b := by
      split_ifs
      · exact ⟨_, rfl, by omega, by omega⟩
      · exact ⟨_, rfl, hc1, hc2⟩
    obtain ⟨pivot, hpe, hp1, hp2⟩ := hpiv
    rw [hpe]
    generalize (if chosen.2 = SortedHint.decreasingHint then SortedHint.increasingHint
      else chosen.2) = hint
    have hpred2 : PredBelow less a b d2 := hpred.of_shuffled (hd1s.trans hd2s)
    have htried : ∃ t : List α × Bool,
        (if (wb && wp && decide (hint = SortedHint.increasingHint)) = true then
          partialInsertionSort_func less d2 a b else (d2, false)) = t ∧
        Shuffled a b d2 t.1 ∧ (t.2 = true → SortedSeg less a b t.1) := by
      split_ifs
      · exact ⟨_, rfl, partialInsertionSort_func_spec less htot htr a b d2 (by omega) hd2l hpred2⟩
      · exact ⟨_, rfl, Shuffled.refl _ _ _, fun h => absurd h (by simp)⟩
    obtain ⟨t, hte, hts, hto⟩ := htried
    rw [hte]
    have hall : Shuffled a b l t.1 := (hd1s.trans hd2s).trans hts
    have htl : b ≤ t.1.length := by rw [hall.length_eq]; exact hbl
    have hpredt : PredBelow less a b t.1 := hpred.of_shuffled hall
    by_cases hdone : t.2 = true
    · rw [if_pos hdone]
      exact ⟨hall, hto hdone⟩
    rw [if_neg hdone]
    have hnoeq : ¬ (a > 0 ∧ lessAt less t.1 (a - 1) pivot = false) := by
      rintro ⟨ha, hl⟩
      rcases hpredt with h | h
      · omega
      · have h1 := h pivot hp1 hp2
        unfold lessAt at hl
        rcases htot (t.1.getD (a - 1) default) (t.1.getD pivot default) with h2 | h2
        · rw [hl] at h2
          exact absurd h2 (by simp)
        · rw [h1] at h2
          exact absurd h2 (by simp)
    rw [if_neg hnoeq]
    obtain ⟨q1, q2, q3, q4, q5⟩ := partition_func_spec less t.1 a b pivot (by omega) htl hp1 hp2
    generalize partition_func less t.1 a b pivot = parted at *
    have hallp : Shuffled a b l parted.1 := hall.trans q1
    have hpl : b ≤ parted.1.length := by rw [hallp.length_eq]; exact hbl
    have hpredp : PredBelow less a b parted.1 := hpred.of_shuffled hallp
    by_cases hside : parted.2.1 - a < b - parted.2.1
    · rw [if_pos hside]
      obtain ⟨s1, s2⟩ := ih parted.1 a parted.2.1 limit1 true true q2 (by omega) (by omega)
        (hpredp.shorten (by omega))
      generalize pdqsort_func less next fuel parted.1 a parted.2.1 limit1 true true = d5 at *
      have hd5l : b ≤ d5.length := by rw [s1.length_eq]; exact hpl
      obtain ⟨s3, s4⟩ := ih d5 (parted.2.1 + 1) b limit1
        (decide (parted.2.1 - a ≥ (b - a) / 8)) parted.2.2 (by omega) hd5l (by omega)
        (Or.inr (fun k h1 h2 => by
          rw [s1.frame k (by omega), Nat.add_sub_cancel, s1.frame parted.2.1 (by omega)]
          exact q5 k (by omega) h2))
      generalize pdqsort_func less next fuel d5 (parted.2.1 + 1) b limit1
        (decide (parted.2.1 - a ≥ (b - a) / 8)) parted.2.2 = out at *
      refine ⟨hallp.trans ((s1.widen (le_refl _) (by omega)).trans
        (s3.widen (by omega) (le_refl _))), ?_⟩
      apply SortedSeg.join less htot htr a parted.2.1 b out
        (parted.1.getD parted.2.1 default)
      · intro k h1 h2
        rw [s3.frame k (by omega)]
        exact s1.forall_seg (fun x => less x (parted.1.getD parted.2.1 default) = true) q4
          k h1 h2
      · rw [s3.frame _ (by omega), s1.frame _ (by omega)]
      · intro k h1 h2
        refine s3.forall_seg (fun x => less x (parted.1.getD parted.2.1 default) = false) ?_
          k (by omega) h2
        intro k' h3 h4
        rw [s1.frame k' (by omega)]
        exact q5 k' (by omega) h4
      · exact s2.of_frame (fun k h1 h2 => s3.frame k (by omega))
      · exact s4
    · rw [if_neg hside]
      obtain ⟨s1, s2⟩ := ih parted.1 (parted.2.1 + 1) b limit1 true true (by omega) hpl
        (by omega) (Or.inr (fun k h1 h2 => by
          rw [Nat.add_sub_cancel]
          exact q5 k (by omega) h2))
      generalize pdqsort_func less next fuel parted.1 (parted.2.1 + 1) b limit1 true true =
        d5 at *
      have hd5l : b ≤ d5.length := by rw [s1.length_eq]; exact hpl
      obtain ⟨s3, s4⟩ := ih d5 a parted.2.1 limit1
        (decide (b - parted.2.1 ≥ (b - a) / 8)) parted.2.2 q2 (by omega) (by omega)
        ((hpredp.of_shuffled (s1.widen (by omega) (le_refl _))).shorten (by omega))
      generalize pdqsort_func less next fuel d5 a parted.2.1 limit1
        (decide (b - parted.2.1 ≥ (b - a) / 8)) parted.2.2 = out at *
      refine ⟨hallp.trans ((s1.widen (by omega) (le_refl _)).trans
        (s3.widen (le_refl _) (by omega))), ?_⟩
      apply SortedSeg.join less htot htr a parted.2.1 b out
        (parted.1.getD parted.2.1 default)
      · intro k h1 h2
        refine s3.forall_seg (fun x => less x (parted.1.getD parted.2.1 default) = true) ?_
          k h1 h2
        intro k' h3 h4
        rw [s1.frame k' (by omega)]
        exact q4 k' h3 h4
      · rw [s3.frame _ (by omega), s1.frame _ (by omega)]
      · intro k h1 h2
        rw [s3.frame k (by omega)]
        exact s1.forall_seg (fun x => less x (parted.1.getD parted.2.1 default) = false)
          (fun k' h3 h4 => q5 k' (by omega) h4) k (by omega) h2
      · exact s4
      · exact s2.of_frame (fun k h1 h2 => s3.frame k (by omega))

theorem sortSlice_spec {α : Type} [Inhabited α] (less : α → α → Bool) (next : Nat → Nat)
    (htot : ∀ x y, less x y = true ∨ less y x = true)
    (htr : ∀ x y z, less x y = true → less y z = true → less x z = true) (xs : List α) :
    (sortSlice less next xs).Perm xs ∧
      (sortSlice less next xs).Pairwise (fun x y => less x y = true) := by
  obtain ⟨h1, h2⟩ := pdqsort_func_spec less next htot htr (xs.length + 1) xs 0 xs.length
    (bitsLen xs.length) true true (Nat.zero_le _) (le_refl _) (by omega) (Or.inl rfl)
  refine ⟨h1.perm, ?_⟩
  unfold sortSlice
  generalize pdqsort_func less next (xs.length + 1) xs 0 xs.length (bitsLen xs.length)
    true true = out at *
  rw [List.pairwise_iff_getElem]
  intro i j hi hj hij
  have := h2 i j (Nat.zero_le _) hij (by rw [← h1.length_eq]; exact hj)
  rwa [List.getD_eq_getElem _ _ hi, List.getD_eq_getElem _ _ hj] at this

/-! ## The sort step -/

theorem timeNotBefore_total (x y : LogRecord) :
    timeNotBefore x y = true ∨ timeNotBefore y x = true := by
  unfold timeNotBefore
  by_cases h : x.Time < y.Time
  · right
    have : ¬ y.Time < x.Time := by omega
    simp [this]
  · left
    simp [h]

theorem timeNotBefore_trans (x y z : LogRecord) (h1 : timeNotBefore x y = true)
    (h2 : timeNotBefore y z = true) : timeNotBefore x z = true := by
  unfold timeNotBefore at *
  simp only [Bool.not_eq_true', decide_eq_false_iff_not] at *
  omega

theorem sortLogs_perm (next : Nat → Nat) (logs : List LogRecord) :
    (sortLogs next logs).Perm logs :=
  (sortSlice_spec timeNotBefore next timeNotBefore_total timeNotBefore_trans logs).1

theorem sortLogs_descending (next : Nat → Nat) (logs : List LogRecord) :
    (sortLogs next logs).Pairwise (fun a b => b.Time ≤ a.Time) := by
  refine (sortSlice_spec timeNotBefore next timeNotBefore_total timeNotBefore_trans logs).2.imp ?_
  intro a b h
  unfold timeNotBefore at h
  simp only [Bool.not_eq_true', decide_eq_false_iff_not] at h
  omega

theorem sortSlice_short {α : Type} [Inhabited α] (less : α → α → Bool) (next : Nat → Nat)
    (xs : List α) (h : xs.length ≤ 12) :
    sortSlice less next xs = insertionSort_func less xs 0 xs.length := by
  unfold sortSlice
  rw [pdqsort_func, if_pos (by omega)]

/-- The sort step on thirteen records of one `Time`, a slice too long for the
insertion sort alone: the pivot at index 6 goes to the end and the twelve others
come out of the insertion sort in the order of the lines 11, 10, 9, 8, 7, 0, 5,
4, 3, 2, 1, 12. -/
theorem sortLogs_exampleTies :
    (sortLogs exampleNext exampleTies).map (fun log => log.Line) =
      [11, 10, 9, 8, 7, 0, 5, 4, 3, 2, 1, 12, 6] := by
  decide

/-- Claim C5: for every record list the sort step of `main` yields a permutation
of the input in which no record's `Time` is before the `Time` of a record that
follows it, in particular of the record right after it (most recent first). -/
theorem sortLogs_sorted_perm (next : Nat → Nat) (logs : List LogRecord) :
    (sortLogs next logs).Perm logs ∧
      (sortLogs next logs).Pairwise (fun a b => ¬ a.Time < b.Time) ∧
      (sortLogs next logs).Chain' (fun a b => ¬ a.Time < b.Time) := by
  have hp : (sortLogs next logs).Pairwise (fun a b => ¬ a.Time < b.Time) :=
    (sortLogs_descending next logs).imp (fun h => not_lt.mpr h)
  exact ⟨sortLogs_perm next logs, hp, hp.chain'⟩

theorem descending_unique (l1 l2 : List LogRecord) (hperm : l1.Perm l2)
    (h1 : l1.Pairwise (fun a b => b.Time ≤ a.Time))
    (h2 : l2.Pairwise (fun a b => b.Time < a.Time)) : l1 = l2 := by
  induction l2 generalizing l1 with
  | nil => exact hperm.eq_nil
  | cons b t2 ih =>
    cases l1 with
    | nil => exact absurd hperm.symm.eq_nil (by simp)
    | cons a t1 =>
      rw [List.pairwise_cons] at h1 h2
      have hab : a = b := by
        have ha : a ∈ b :: t2 := hperm.mem_iff.mp (List.mem_cons_self _ _)
        have hb : b ∈ a :: t1 := hperm.mem_iff.mpr (List.mem_cons_self _ _)
        rcases List.mem_cons.mp ha with h | ha
        · exact h
        · rcases List.mem_cons.mp hb with h | hb
          · exact h.symm
          · have := h2.1 a ha
            have := h1.1 b hb
            omega
      subst hab
      rw [ih t1 (List.Perm.cons_inv hperm) h1.2 h2.2]

/-- Claim C10, amended: for every record list in strictly descending `Time` order
(no two records with the same `Time`), applying the sort step of `main` again
returns the identical sequence. -/
theorem sortLogs_fixes_strictly_descending (next : Nat → Nat) (logs : List LogRecord)
    (h : logs.Pairwise (fun a b => b.Time < a.Time)) : sortLogs next logs = logs :=
  descending_unique _ _ (sortLogs_perm next logs) (sortLogs_descending next logs) h

theorem sortLogs_fixes_strictly_descending_witness :
    ([⟨300, "", "f", 2⟩, ⟨200, "", "f", 1⟩, ⟨100, "", "f", 0⟩] : List LogRecord).Pairwise
      (fun a b => b.Time < a.Time) ∧
    sortLogs exampleNext [⟨300, "", "f", 2⟩, ⟨200, "", "f", 1⟩, ⟨100, "", "f", 0⟩] =
      [⟨300, "", "f", 2⟩, ⟨200, "", "f", 1⟩, ⟨100, "", "f", 0⟩] :=
  ⟨by decide, sortLogs_fixes_strictly_descending exampleNext _ (by decide)⟩

/-- Claim C10 fails with ties: two records of equal `Time` are in descending order
and the sort step exchanges them, whatever the library's generator is. -/
theorem sortLogs_swaps_tie :
    [(⟨1, "", "f", 0⟩ : LogRecord), ⟨1, "", "f", 1⟩].Pairwise (fun a b => ¬ a.Time < b.Time) ∧
    (∀ next : Nat → Nat,
      sortLogs next [⟨1, "", "f", 0⟩, ⟨1, "", "f", 1⟩] = [⟨1, "", "f", 1⟩, ⟨1, "", "f", 0⟩]) ∧
    (∀ next : Nat → Nat,
      sortLogs next [⟨1, "", "f", 0⟩, ⟨1, "", "f", 1⟩] ≠ [⟨1, "", "f", 0⟩, ⟨1, "", "f", 1⟩]) := by
  have hsort : ∀ next : Nat → Nat,
      sortLogs next [⟨1, "", "f", 0⟩, ⟨1, "", "f", 1⟩] =
        [⟨1, "", "f", 1⟩, ⟨1, "", "f", 0⟩] := by
    intro next
    unfold sortLogs
    rw [sortSlice_short _ _ _ (by decide)]
    decide
  refine ⟨by decide, hsort, ?_⟩
  intro next
  rw [hsort next]
  decide

/-! ## GoMap and the record builder -/

theorem mem_foldl_GoMap {T U : Type} (values : List U) (f : Int → U → List T) (r : T)
    (arrival : List Nat) (acc : List T) :
    r ∈ arrival.foldl (fun result i => result ++ GoMap.sent values f i) acc ↔
      r ∈ acc ∨ ∃ i ∈ arrival, r ∈ GoMap.sent values f i := by
  induction arrival generalizing acc with
  | nil => simp
  | cons i rest ih =>
    rw [List.foldl_cons, ih]
    simp only [List.mem_cons, exists_eq_or_imp, List.mem_append]
    tauto

theorem mem_GoMap {T U : Type} (arrival : List Nat) (values : List U) (f : Int → U → List T)
    (r : T) :
    r ∈ GoMap arrival values f ↔ ∃ i ∈ arrival, r ∈ GoMap.sent values f i := by
  unfold GoMap
  split_ifs with hlen
  · have hnil : values = [] := List.length_eq_zero.mp hlen
    subst hnil
    simp [GoMap.sent]
  · rw [mem_foldl_GoMap]
    simp

theorem nodup_foldl_GoMap {T U : Type} (values : List U) (f : Int → U → List T)
    (hf : ∀ i : Nat, (GoMap.sent values f i).Nodup)
    (hdis : ∀ i j : Nat, i ≠ j →
      ∀ r, r ∈ GoMap.sent values f i → r ∈ GoMap.sent values f j → False)
    (arrival : List Nat) (acc : List T) (harr : arrival.Nodup) (hacc : acc.Nodup)
    (hsep : ∀ i ∈ arrival, ∀ r, r ∈ acc → r ∈ GoMap.sent values f i → False) :
    (arrival.foldl (fun result i => result ++ GoMap.sent values f i) acc).Nodup := by
  induction arrival generalizing acc with
  | nil => exact hacc
  | cons i rest ih =>
    rw [List.foldl_cons]
    rw [List.nodup_cons] at harr
    apply ih _ harr.2
    · rw [List.nodup_append]
      refine ⟨hacc, hf i, ?_⟩
      intro r hr1 hr2
      exact hsep i (List.mem_cons_self _ _) r hr1 hr2
    · intro j hj r hr hrj
      rcases List.mem_append.mp hr with hr | hr
      · exact hsep j (List.mem_cons_of_mem _ hj) r hr hrj
      · have hne : i ≠ j := fun h => harr.1 (h ▸ hj)
        exact hdis i j hne r hr hrj

theorem nodup_GoMap {T U : Type} (arrival : List Nat) (values : List U) (f : Int → U → List T)
    (harr : arrival.Nodup)
    (hf : ∀ i : Nat, (GoMap.sent values f i).Nodup)
    (hdis : ∀ i j : Nat, i ≠ j →
      ∀ r, r ∈ GoMap.sent values f i → r ∈ GoMap.sent values f j → False) :
    (GoMap arrival values f).Nodup := by
  unfold GoMap
  split_ifs with hlen
  · exact List.nodup_nil
  · exact nodup_foldl_GoMap values f hf hdis arrival [] harr List.nodup_nil
      (fun _ _ r hr _ => absurd hr (List.not_mem_nil r))

/-- What the goroutine for line `i` of `ParseFileToLogRecords` sends. -/
theorem mem_sent_ParseFile (file : String) (lines : List String) (toDate : String → Option Int)
    (i : Nat) (r : LogRecord) :
    r ∈ GoMap.sent lines (fun i line =>
        match toDate line with
        | none => []
        | some t => [({ Content := "", Line := i, File := file, Time := t } : LogRecord)]) i ↔
      ∃ t : Int, ∃ h : i < lines.length, toDate (lines.get ⟨i, h⟩) = some t ∧
        r = { Time := t, Content := "", File := file, Line := (i : Int) } := by
  unfold GoMap.sent
  by_cases h : i < lines.length
  · rw [List.getElem?_eq_getElem h]
    simp only
    cases htd : toDate lines[i] with
    | none =>
      simp only [List.not_mem_nil, false_iff]
      rintro ⟨t, _, ht, _⟩
      have : toDate lines[i] = some t := ht
      rw [htd] at this
      exact absurd this (by simp)
    | some t =>
      simp only [List.mem_singleton]
      constructor
      · intro hr
        exact ⟨t, h, htd, hr⟩
      · rintro ⟨t2, _, ht, hr⟩
        have : toDate lines[i] = some t2 := ht
        rw [htd] at this
        injection this with this
        subst this
        exact hr
  · rw [List.getElem?_eq_none (by omega)]
    simp only [List.not_mem_nil, false_iff]
    rintro ⟨_, h2, _⟩
    exact h h2

theorem mem_ParseFileToLogRecords (arrival : List Nat) (file : String) (lines : List String)
    (toDate : String → Option Int) (harr : arrival.Perm (List.range lines.length))
    (r : LogRecord) :
    r ∈ ParseFileToLogRecords arrival file lines toDate ↔
      ∃ (i : Nat) (t : Int), ∃ h : i < lines.length, toDate (lines.get ⟨i, h⟩) = some t ∧
        r = { Time := t, Content := "", File := file, Line := (i : Int) } := by
  unfold ParseFileToLogRecords
  rw [mem_GoMap]
  constructor
  · rintro ⟨i, _, hr⟩
    exact ⟨i, (mem_sent_ParseFile file lines toDate i r).mp hr⟩
  · rintro ⟨i, t, h, htd, hr⟩
    exact ⟨i, harr.mem_iff.mpr (List.mem_range.mpr h),
      (mem_sent_ParseFile file lines toDate i r).mpr ⟨t, h, htd, hr⟩⟩

theorem nodup_ParseFileToLogRecords (arrival : List Nat) (file : String) (lines : List String)
    (toDate : String → Option Int) (harr : arrival.Perm (List.range lines.length)) :
    (ParseFileToLogRecords arrival file lines toDate).Nodup := by
  unfold ParseFileToLogRecords
  apply nodup_GoMap
  · exact harr.nodup_iff.mpr (List.nodup_range _)
  · intro i
    unfold GoMap.sent
    cases lines[i]? with
    | none => exact List.nodup_nil
    | some line =>
      simp only
      cases toDate line <;> simp
  · intro i j hij r hri hrj
    obtain ⟨_, _, _, h1⟩ := (mem_sent_ParseFile file lines toDate i r).mp hri
    obtain ⟨_, _, _, h2⟩ := (mem_sent_ParseFile file lines toDate j r).mp hrj
    rw [h1] at h2
    injection h2 with _ _ _ hl
    omega

/-- Claim C4: whatever the order of arrival, `ParseFileToLogRecords` returns,
without repetition, exactly the records `{Time: t, Content: "", File: file,
Line: i}` for the indices `i` with `toDate(lines[i]) = t` not nil; so every
returned `Line` satisfies `0 ≤ Line < len(lines)`, and no line gives no record. -/
theorem ParseFileToLogRecords_one_record_per_detected_line (arrival : List Nat) (file : String)
    (lines : List String) (toDate : String → Option Int)
    (harr : arrival.Perm (List.range lines.length)) :
    (ParseFileToLogRecords arrival file lines toDate).Nodup ∧
    (∀ r : LogRecord, r ∈ ParseFileToLogRecords arrival file lines toDate ↔
      ∃ (i : Nat) (t : Int), ∃ h : i < lines.length, toDate (lines.get ⟨i, h⟩) = some t ∧
        r = { Time := t, Content := "", File := file, Line := (i : Int) }) ∧
    (∀ r ∈ ParseFileToLogRecords arrival file lines toDate,
      0 ≤ r.Line ∧ r.Line < (lines.length : Int)) ∧
    (lines = [] → ParseFileToLogRecords arrival file lines toDate = []) := by
  refine ⟨nodup_ParseFileToLogRecords arrival file lines toDate harr,
    mem_ParseFileToLogRecords arrival file lines toDate harr, ?_, ?_⟩
  · intro r hr
    obtain ⟨i, t, h, _, rfl⟩ := (mem_ParseFileToLogRecords arrival file lines toDate harr r).mp hr
    simp only
    omega
  · intro hnil
    subst hnil
    simp [ParseFileToLogRecords, GoMap]

theorem ParseFileToLogRecords_one_record_per_detected_line_witness :
    [2, 0, 1].Perm (List.range ["t1", "x", "t3"].length) ∧
    ParseFileToLogRecords [2, 0, 1] "f" ["t1", "x", "t3"] exampleToDate =
      [⟨3, "", "f", 2⟩, ⟨1, "", "f", 0⟩] ∧
    (ParseFileToLogRecords [2, 0, 1] "f" ["t1", "x", "t3"] exampleToDate).Nodup ∧
    ∀ r ∈ ParseFileToLogRecords [2, 0, 1] "f" ["t1", "x", "t3"] exampleToDate,
      0 ≤ r.Line ∧ r.Line < ((["t1", "x", "t3"] : List String).length : Int) :=
  ⟨by decide, by decide,
    (ParseFileToLogRecords_one_record_per_detected_line [2, 0, 1] "f" ["t1", "x", "t3"]
      exampleToDate (by decide)).1,
    (ParseFileToLogRecords_one_record_per_detected_line [2, 0, 1] "f" ["t1", "x", "t3"]
      exampleToDate (by decide)).2.2.1⟩

/-! ## Filters and limit -/

theorem filterLogs_eq_filter (after before : Option Int) (logs : List LogRecord) :
    filterLogs after before none logs = logs.filter (withinBounds after before) := by
  unfold filterLogs
  have hfun : ∀ a b : Option Int, withinBounds a b = fun log =>
      (match a with
        | some a => decide (a < log.Time)
        | none => true) &&
      (match b with
        | some b => decide (log.Time < b)
        | none => true) := fun _ _ => rfl
  cases after <;> cases before <;>
    simp [hfun, List.filter_filter, Bool.and_comm]

theorem min_bounds (k len : Int) (hk : 0 ≤ k) (hlen : 0 ≤ len) :
    0 ≤ min k len ∧ min k len ≤ len ∧ min k len ≤ k := by
  unfold min
  split_ifs <;> omega

theorem selectLogs_eq_take (after before : Option Int) (k : Int) (logs : List LogRecord)
    (hk : 0 ≤ k) :
    selectLogs after before none k logs =
      some ((logs.filter (withinBounds after before)).take
        (min k ((logs.filter (withinBounds after before)).length : Int)).toNat) := by
  unfold selectLogs
  simp only
  rw [filterLogs_eq_filter]
  split_ifs with hlen
  · rw [List.length_eq_zero.mp hlen]
    simp
  · obtain ⟨h0, h1, _⟩ := min_bounds k ((logs.filter (withinBounds after before)).length : Int)
      hk (Int.natCast_nonneg _)
    rw [goSlice_of_bounds _ _ _ (le_refl _) h0 h1]
    simp

theorem toNat_min (k : Int) (m : Nat) (hk : 0 ≤ k) :
    (min k (m : Int)).toNat = Min.min k.toNat m := by
  unfold min
  split_ifs <;> omega

/-- Claim C6: for every record list, every optional after and before bound and
every limit `k ≥ 0` (no `--ago`), the list `main` is left with is an
order-preserving subsequence of the input, holds only records strictly after the
after-bound and strictly before the before-bound, has at most `k` records, and is
the first `min(k, m)` of the `m` records that pass the filters. -/
theorem selectLogs_keeps_first_filtered (after before : Option Int) (k : Int)
    (logs : List LogRecord) (hk : 0 ≤ k) :
    ∃ out, selectLogs after before none k logs = some out ∧
      out.Sublist logs ∧
      (∀ r ∈ out, (∀ a, after = some a → a < r.Time) ∧ (∀ b, before = some b → r.Time < b)) ∧
      (out.length : Int) ≤ k ∧
      out = (logs.filter (withinBounds after before)).take
        (Min.min k.toNat (logs.filter (withinBounds after before)).length) := by
  have heq := selectLogs_eq_take after before k logs hk
  rw [toNat_min k _ hk] at heq
  refine ⟨_, heq, ?_, ?_, ?_, rfl⟩
  · exact (List.take_sublist _ _).trans (List.filter_sublist _)
  · intro r hr
    have hmem := List.mem_of_mem_take hr
    have hw : withinBounds after before r = true := (List.mem_filter.mp hmem).2
    unfold withinBounds at hw
    rw [Bool.and_eq_true] at hw
    constructor
    · intro a ha
      subst ha
      simpa using hw.1
    · intro b hb
      subst hb
      simpa using hw.2
  · simp only [List.length_take]
    omega

theorem selectLogs_keeps_first_filtered_witness :
    (0 : Int) ≤ 2 ∧
    selectLogs (some 100) none none 2
        [⟨300, "", "f", 20⟩, ⟨250, "", "f", 15⟩, ⟨200, "", "f", 12⟩, ⟨100, "", "f", 5⟩] =
      some [⟨300, "", "f", 20⟩, ⟨250, "", "f", 15⟩] ∧
    selectLogs (some 100) (some 300) none 5
        [⟨300, "", "f", 20⟩, ⟨250, "", "f", 15⟩, ⟨200, "", "f", 12⟩, ⟨100, "", "f", 5⟩] =
      some [⟨250, "", "f", 15⟩, ⟨200, "", "f", 12⟩] := by
  obtain ⟨out, h1, _, _, _, h5⟩ := selectLogs_keeps_first_filtered (some 100) none 2
    [⟨300, "", "f", 20⟩, ⟨250, "", "f", 15⟩, ⟨200, "", "f", 12⟩, ⟨100, "", "f", 5⟩]
    (by decide)
  obtain ⟨out2, g1, _, _, _, g5⟩ := selectLogs_keeps_first_filtered (some 100) (some 300) 5
    [⟨300, "", "f", 20⟩, ⟨250, "", "f", 15⟩, ⟨200, "", "f", 12⟩, ⟨100, "", "f", 5⟩]
    (by decide)
  refine ⟨by decide, ?_, ?_⟩
  · rw [h1, h5]
    decide
  · rw [g1, g5]
    decide

/-! ## The content loop -/

theorem renderContent_eq_map (lineMap : String → List String) (skipColumn : Int)
    (logs : List LogRecord) (i : Nat) (log : LogRecord) :
    renderContent lineMap skipColumn logs i log =
      (GetRangeLines (lineMap log.File) log.Line (contentEnd logs i log) " "
        (some (skipColumns skipColumn))).map (fun content => { log with Content := content }) := by
  unfold renderContent
  cases GetRangeLines (lineMap log.File) log.Line (contentEnd logs i log) " "
    (some (skipColumns skipColumn)) <;> rfl

theorem contentLoopFrom_some (lineMap : String → List String) (skipColumn : Int)
    (logs : List LogRecord) (rest : List LogRecord) (i : Nat)
    (h : ∀ (j : Nat) (hj : j < rest.length),
      ∃ r, renderContent lineMap skipColumn logs (i + j) (rest.get ⟨j, hj⟩) = some r) :
    ∃ out, contentLoopFrom lineMap skipColumn logs i rest = some out := by
  induction rest generalizing i with
  | nil => exact ⟨[], rfl⟩
  | cons log rest ih =>
    obtain ⟨r, hr⟩ := h 0 (by simp)
    have hr2 : renderContent lineMap skipColumn logs i log = some r := by simpa using hr
    obtain ⟨others, ho⟩ := ih (i + 1) (fun j hj => by
      obtain ⟨r2, hr2⟩ := h (j + 1) (by simp; omega)
      refine ⟨r2, ?_⟩
      have : i + 1 + j = i + (j + 1) := by omega
      rw [this]
      simpa using hr2)
    exact ⟨r :: others, by rw [contentLoopFrom, hr2, ho]⟩

theorem contentLoopFrom_get (lineMap : String → List String) (skipColumn : Int)
    (logs : List LogRecord) (rest : List LogRecord) (i : Nat) (out : List LogRecord)
    (h : contentLoopFrom lineMap skipColumn logs i rest = some out) :
    out.length = rest.length ∧
      ∀ (j : Nat) (hj : j < rest.length),
        out[j]? = renderContent lineMap skipColumn logs (i + j) (rest.get ⟨j, hj⟩) := by
  induction rest generalizing i out with
  | nil =>
    rw [contentLoopFrom] at h
    injection h with h
    subst h
    exact ⟨rfl, fun j hj => absurd hj (by simp)⟩
  | cons log rest ih =>
    rw [contentLoopFrom] at h
    cases hr : renderContent lineMap skipColumn logs i log with
    | none => rw [hr] at h; exact absurd h (by simp)
    | some r =>
      rw [hr] at h
      simp only at h
      cases ho : contentLoopFrom lineMap skipColumn logs (i + 1) rest with
      | none => rw [ho] at h; exact absurd h (by simp)
      | some others =>
        rw [ho] at h
        simp only at h
        injection h with h
        subst h
        obtain ⟨hlen, hget⟩ := ih (i + 1) others ho
        refine ⟨by simp [hlen], ?_⟩
        intro j hj
        cases j with
        | zero => simpa using hr.symm
        | succ j =>
          have hj2 : j < rest.length := by simpa using hj
          have := hget j hj2
          have hidx : i + 1 + j = i + (j + 1) := by omega
          rw [hidx] at this
          simpa using this

/-! ## The first-line transform against the spec's fields -/

theorem specFields_eq_split (line : String)
    (h : ∀ part ∈ stringsSplit line ' ',
      part ≠ "" ∧ ∀ c ∈ part.data, c.isWhitespace = false) :
    specFields line = stringsSplit line ' ' := by
  unfold specFields stringsSplit at *
  have hparts : ∀ p ∈ splitChars ' ' line.data, p ≠ [] ∧ ∀ c ∈ p, c.isWhitespace = false := by
    intro p hp
    have := h (String.mk p) (List.mem_map_of_mem _ hp)
    refine ⟨?_, this.2⟩
    intro hnil
    apply this.1
    rw [hnil]
  rw [specFieldsChars_eq_filter _ (fun p hp => (hparts p hp).2)]
  congr 1
  rw [List.filter_eq_self]
  intro p hp
  simpa using (hparts p hp).1

/-- Claim C8, amended: for every display line and every skip count `k ≥ 0` the
first-line transform of `main` returns the parts of `strings.Split(line, " ")`
with the first `k` removed, joined by single spaces; when every such part is
non-empty and free of whitespace (the fields are separated by exactly one space
each) these are the line's whitespace-delimited fields with the first `k`
removed. -/
theorem skipColumns_drops_space_separated_parts (k : Int) (line : String) (hk : 0 ≤ k) :
    skipColumns k line = some (stringsJoin ((stringsSplit line ' ').drop k.toNat) " ") ∧
    ((∀ part ∈ stringsSplit line ' ',
        part ≠ "" ∧ ∀ c ∈ part.data, c.isWhitespace = false) →
      skipColumns k line = some (specSkipColumns k.toNat line)) := by
  refine ⟨skipColumns_eq_drop k line hk, ?_⟩
  intro h
  rw [skipColumns_eq_drop k line hk, specSkipColumns, specFields_eq_split line h]

theorem skipColumns_drops_space_separated_parts_witness :
    (0 : Int) ≤ 2 ∧
    (∀ part ∈ stringsSplit "host proc: message text" ' ',
        part ≠ "" ∧ ∀ c ∈ part.data, c.isWhitespace = false) ∧
    skipColumns 2 "host proc: message text" = some "message text" ∧
    specSkipColumns 2 "host proc: message text" = "message text" := by
  have hparts : ∀ part ∈ stringsSplit "host proc: message text" ' ',
      part ≠ "" ∧ ∀ c ∈ part.data, c.isWhitespace = false := by decide
  have h := skipColumns_drops_space_separated_parts 2 "host proc: message text" (by decide)
  refine ⟨by decide, hparts, ?_, by decide⟩
  rw [h.2 hparts]
  decide

/-- Claim C8 fails on a line with two spaces in a row, and on a tab-separated
line: the transform splits at single spaces only. -/
theorem skipColumns_keeps_empty_parts :
    skipColumns 1 "a  b" = some " b" ∧ specSkipColumns 1 "a  b" = "b" ∧
    skipColumns 1 "a  b" ≠ some (specSkipColumns 1 "a  b") ∧
    skipColumns 1 "a\tb" = some "" ∧ specSkipColumns 1 "a\tb" = "b" := by
  decide

/-! ## The range end of the content loop -/

theorem contentEnd_eq (logs : List LogRecord) (i : Nat) (log : LogRecord) :
    contentEnd logs i log =
      match logs[i + 1]? with
      | some next => next.Line
      | none => log.Line + 1 := by
  unfold contentEnd
  split_ifs with h
  · rw [List.getElem?_eq_getElem h]
  · rw [List.getElem?_eq_none (by omega)]

theorem specRangeEnd_of_next_same_file (logs : List LogRecord) (i : Nat) (log : LogRecord)
    (h : ∀ next, logs[i + 1]? = some next → next.File = log.File) :
    specRangeEnd logs i log = contentEnd logs i log := by
  rw [contentEnd_eq]
  unfold specRangeEnd
  cases hn : logs[i + 1]? with
  | none =>
    have hlen : logs.length ≤ i + 1 := by
      by_contra hc
      rw [List.getElem?_eq_getElem (by omega)] at hn
      exact absurd hn (by simp)
    rw [List.drop_eq_nil_of_le hlen]
    rfl
  | some next =>
    have hlt : i + 1 < logs.length := by
      by_contra hc
      rw [List.getElem?_eq_none (by omega)] at hn
      exact absurd hn (by simp)
    rw [List.getElem?_eq_getElem hlt] at hn
    injection hn with hn
    rw [List.drop_eq_getElem_cons hlt, hn]
    have hf := h next (by rw [List.getElem?_eq_getElem hlt, hn])
    simp [List.find?, hf]

/-- Claim C2, amended: for every record list and every index `i`, the range end
used to render record `i`'s content in `main` is the `Line` of the record at
index `i + 1`, whatever its `File`, and `Line_i + 1` when record `i` is the last;
it is the `Line` of the next record with the `File` of record `i` whenever the
record at index `i + 1`, if there is one, has that `File`. -/
theorem contentEnd_is_line_of_following_record (lineMap : String → List String)
    (skipColumn : Int) (logs : List LogRecord) (i : Nat) (hi : i < logs.length) :
    contentEnd logs i logs[i] =
      (match logs[i + 1]? with
        | some next => next.Line
        | none => logs[i].Line + 1) ∧
    renderContent lineMap skipColumn logs i logs[i] =
      (GetRangeLines (lineMap logs[i].File) logs[i].Line
        (match logs[i + 1]? with
          | some next => next.Line
          | none => logs[i].Line + 1) " " (some (skipColumns skipColumn))).map
        (fun content => { logs[i] with Content := content }) ∧
    ((∀ next, logs[i + 1]? = some next → next.File = logs[i].File) →
      contentEnd logs i logs[i] = specRangeEnd logs i logs[i]) := by
  refine ⟨contentEnd_eq _ _ _, ?_, fun h => (specRangeEnd_of_next_same_file _ _ _ h).symm⟩
  rw [renderContent_eq_map, contentEnd_eq]

theorem contentEnd_is_line_of_following_record_witness :
    contentEnd [⟨3, "", "a", 7⟩, ⟨2, "", "a", 3⟩, ⟨1, "", "b", 2⟩] 0 ⟨3, "", "a", 7⟩ = 3 ∧
    specRangeEnd [⟨3, "", "a", 7⟩, ⟨2, "", "a", 3⟩, ⟨1, "", "b", 2⟩] 0 ⟨3, "", "a", 7⟩ = 3 := by
  have h := contentEnd_is_line_of_following_record (fun _ => []) 0
    [⟨3, "", "a", 7⟩, ⟨2, "", "a", 3⟩, ⟨1, "", "b", 2⟩] 0 (by decide)
  have hsame : ∀ next : LogRecord,
      ([⟨3, "", "a", 7⟩, ⟨2, "", "a", 3⟩, ⟨1, "", "b", 2⟩] : List LogRecord)[0 + 1]? = some next →
      next.File = "a" := by
    intro next hn
    have : next = ⟨2, "", "a", 3⟩ := by
      simpa using hn.symm
    rw [this]
  exact ⟨h.1, (h.2.2 hsame).symm.trans h.1⟩

/-- Claim C2 fails on a list that mixes two sources: the range end of the first
record is the `Line` of the record after it, which is of the other source. -/
theorem contentEnd_ignores_file :
    ([⟨3, "", "a", 7⟩, ⟨2, "", "b", 3⟩, ⟨1, "", "a", 2⟩] : List LogRecord).Pairwise
      (fun a b => ¬ a.Time < b.Time) ∧
    contentEnd [⟨3, "", "a", 7⟩, ⟨2, "", "b", 3⟩, ⟨1, "", "a", 2⟩] 0 ⟨3, "", "a", 7⟩ = 3 ∧
    specRangeEnd [⟨3, "", "a", 7⟩, ⟨2, "", "b", 3⟩, ⟨1, "", "a", 2⟩] 0 ⟨3, "", "a", 7⟩ = 2 ∧
    contentEnd [⟨3, "", "a", 7⟩, ⟨2, "", "b", 3⟩, ⟨1, "", "a", 2⟩] 0 ⟨3, "", "a", 7⟩ ≠
      specRangeEnd [⟨3, "", "a", 7⟩, ⟨2, "", "b", 3⟩, ⟨1, "", "a", 2⟩] 0 ⟨3, "", "a", 7⟩ ∧
    contentEnd [⟨3, "", "a", 7⟩, ⟨2, "", "b", 3⟩] 0 ⟨3, "", "a", 7⟩ = 3 ∧
    specRangeEnd [⟨3, "", "a", 7⟩, ⟨2, "", "b", 3⟩] 0 ⟨3, "", "a", 7⟩ = 8 := by
  decide

/-! ## The preview callback -/

theorem GetRangeLines_untransformed (lines : List String) (start end_ : Int) (sep : String)
    (hend : 0 ≤ end_) :
    GetRangeLines lines start end_ sep none =
      some (stringsJoin (clampedLines lines start end_) sep) := by
  obtain ⟨h0, h1, h2⟩ := clampRange_bounds lines.length start end_ (Int.natCast_nonneg _) hend
  unfold GetRangeLines clampedLines
  rw [goSlice_of_bounds lines _ _ h0 h1 h2]
  split
  · rename_i heq
    exact absurd heq (by simp)
  · rename_i heq
    injection heq with heq
    rw [heq]
    rfl
  · rename_i first rest heq
    injection heq with heq
    rw [heq]

theorem preview_eq (lineMap : String → List String) (logs : List LogRecord) (i : Nat)
    (w h : Int) (hi : i < logs.length) :
    preview lineMap logs i w h =
      GetRangeLines (lineMap logs[i].File) logs[i].Line
        (if i + 1 < logs.length then contentEnd logs i logs[i] + h else logs[i].Line + 1)
        "\n" none := by
  unfold preview contentEnd
  have hne : ¬ ((i : Int) = -1) := by omega
  rw [if_neg hne]
  have hb : 0 ≤ (i : Int) ∧ (i : Int).toNat < logs.length := ⟨by omega, by simpa using hi⟩
  rw [dif_pos hb]
  simp only [Int.toNat_ofNat]
  congr 1
  split_ifs <;> rfl

theorem contentEnd_nonneg (logs : List LogRecord) (i : Nat) (log : LogRecord)
    (hlog : 0 ≤ log.Line) (hlines : ∀ r ∈ logs, 0 ≤ r.Line) : 0 ≤ contentEnd logs i log := by
  unfold contentEnd
  split_ifs with h
  · exact hlines _ (List.getElem_mem _)
  · omega

/-- Claim C9, amended: for every record index `i` of the final list (whose
`Line`s are non-negative) and every preview height `h ≥ 0`, the preview callback
returns the untransformed lines of the clamped range `[Line_i, e_i + h)` joined by
newlines when record `i` is not the last, `e_i` being the range end of its
display content; for the last record it returns the lines of the clamped range
`[Line_i, e_i) = [Line_i, Line_i + 1)`, whatever `h` is. -/
theorem preview_extends_content_window_except_last (lineMap : String → List String)
    (logs : List LogRecord) (i : Nat) (w h : Int) (hi : i < logs.length) (hh : 0 ≤ h)
    (hlines : ∀ r ∈ logs, 0 ≤ r.Line) :
    (i + 1 < logs.length →
      preview lineMap logs i w h =
        some (stringsJoin (clampedLines (lineMap logs[i].File) logs[i].Line
          (contentEnd logs i logs[i] + h)) "\n")) ∧
    (i + 1 = logs.length →
      preview lineMap logs i w h =
        some (stringsJoin (clampedLines (lineMap logs[i].File) logs[i].Line
          (contentEnd logs i logs[i])) "\n")) := by
  have hnn : 0 ≤ contentEnd logs i logs[i] :=
    contentEnd_nonneg logs i logs[i] (hlines _ (List.getElem_mem _)) hlines
  constructor
  · intro hnext
    rw [preview_eq lineMap logs i w h hi, if_pos hnext]
    exact GetRangeLines_untransformed _ _ _ _ (by omega)
  · intro hlast
    rw [preview_eq lineMap logs i w h hi, if_neg (by omega)]
    have hce : contentEnd logs i logs[i] = logs[i].Line + 1 := by
      unfold contentEnd
      rw [dif_neg (by omega)]
    rw [hce]
    exact GetRangeLines_untransformed _ _ _ _ (by omega)

theorem preview_extends_content_window_except_last_witness :
    preview (fun _ => ["a", "b", "c", "d"]) [⟨2, "", "f", 1⟩, ⟨1, "", "f", 0⟩] 0 80 3 =
      some "b\nc" ∧
    preview (fun _ => ["a", "b", "c", "d"]) [⟨2, "", "f", 1⟩, ⟨1, "", "f", 0⟩] 1 80 3 =
      some "a" := by
  have h0 := (preview_extends_content_window_except_last (fun _ => ["a", "b", "c", "d"])
    [⟨2, "", "f", 1⟩, ⟨1, "", "f", 0⟩] 0 80 3 (by decide) (by decide) (by decide)).1 (by decide)
  have h1 := (preview_extends_content_window_except_last (fun _ => ["a", "b", "c", "d"])
    [⟨2, "", "f", 1⟩, ⟨1, "", "f", 0⟩] 1 80 3 (by decide) (by decide) (by decide)).2 (by decide)
  exact ⟨h0.trans (by decide), h1.trans (by decide)⟩

/-- Claim C9 fails for the last record: its preview is the one line of its
display window, not that window extended by `h = 2`. -/
theorem preview_of_last_record_is_not_extended :
    contentEnd [⟨1, "", "f", 0⟩] 0 ⟨1, "", "f", 0⟩ = 1 ∧
    preview (fun _ => ["a", "b", "c"]) [⟨1, "", "f", 0⟩] 0 80 2 = some "a" ∧
    GetRangeLines ["a", "b", "c"] 0 (contentEnd [⟨1, "", "f", 0⟩] 0 ⟨1, "", "f", 0⟩ + 2) "\n" none =
      some "a\nb\nc" ∧
    preview (fun _ => ["a", "b", "c"]) [⟨1, "", "f", 0⟩] 0 80 2 ≠
      GetRangeLines ["a", "b", "c"] 0 (contentEnd [⟨1, "", "f", 0⟩] 0 ⟨1, "", "f", 0⟩ + 2)
        "\n" none := by
  decide

/-! ## One source: sort order and the content loop -/

theorem GetRangeLines_transformed_isSome (lines : List String) (start end_ : Int) (sep : String)
    (f : String → Option String) (hend : 0 ≤ end_) (hf : ∀ s, ∃ v, f s = some v) :
    ∃ out, GetRangeLines lines start end_ sep (some f) = some out := by
  obtain ⟨h0, h1, h2⟩ := clampRange_bounds lines.length start end_ (Int.natCast_nonneg _) hend
  unfold GetRangeLines
  rw [goSlice_of_bounds lines _ _ h0 h1 h2]
  split
  · rename_i heq
    exact absurd heq (by simp)
  · exact ⟨_, rfl⟩
  · rename_i first rest heq
    obtain ⟨v, hv⟩ := hf first
    simp only [hv]
    exact ⟨_, rfl⟩

theorem renderContent_isSome (lineMap : String → List String) (skipColumn : Int)
    (logs : List LogRecord) (i : Nat) (log : LogRecord) (hskip : 0 ≤ skipColumn)
    (hlog : 0 ≤ log.Line) (hlines : ∀ r ∈ logs, 0 ≤ r.Line) :
    ∃ r, renderContent lineMap skipColumn logs i log = some r := by
  obtain ⟨c, hc⟩ := GetRangeLines_transformed_isSome (lineMap log.File) log.Line
    (contentEnd logs i log) " " (skipColumns skipColumn)
    (contentEnd_nonneg logs i log hlog hlines)
    (fun s => ⟨_, skipColumns_eq_drop skipColumn s hskip⟩)
  exact ⟨_, by rw [renderContent_eq_map, hc]; rfl⟩

theorem contentLoop_isSome (lineMap : String → List String) (skipColumn : Int)
    (logs : List LogRecord) (hskip : 0 ≤ skipColumn) (hlines : ∀ r ∈ logs, 0 ≤ r.Line) :
    ∃ out, contentLoop lineMap skipColumn logs = some out := by
  unfold contentLoop
  apply contentLoopFrom_some
  intro j hj
  exact renderContent_isSome lineMap skipColumn logs _ _ hskip
    (hlines _ (List.get_mem _ _ _)) hlines

theorem GetRangeLines_one_line (lines : List String) (s : Nat) (sep : String)
    (f : String → Option String) (hs : s < lines.length) :
    GetRangeLines lines s ((s : Int) + 1) sep (some f) = f lines[s] := by
  have h := (GetRangeLines_of_valid_range lines s (s + 1) sep (by omega) (by omega)).1 f
  have hcast : (s : Int) + 1 = ((s + 1 : Nat) : Int) := by omega
  rw [hcast, h]
  have : s + 1 - (s + 1) = 0 := by omega
  rw [this]
  simp only [List.take_zero]
  cases f (lines.get ⟨s, hs⟩) <;> rfl

theorem sortLogs_eq_reverse (next : Nat → Nat) (recs arrived : List LogRecord)
    (htime : recs.Pairwise (fun a b => a.Time < b.Time)) (harr : arrived.Perm recs) :
    sortLogs next arrived = recs.reverse := by
  apply descending_unique
  · exact (sortLogs_perm next arrived).trans (harr.trans (List.reverse_perm recs).symm)
  · exact sortLogs_descending next arrived
  · rw [List.pairwise_reverse]
    exact htime

theorem clampRange_inverted (len start e : Int) (hs : e < start) (he : 0 ≤ e) (heL : e ≤ len) :
    clampRange len start e = (max 0 (e - 1), e) := by
  have h1 : ¬ e > len := by omega
  have h2 : start > e := hs
  simp only [clampRange, if_neg h1, if_pos h2]
  by_cases h : e - 1 < 0
  · rw [if_pos h, max_eq_left (by omega)]
  · rw [if_neg h, max_eq_right (by omega)]

theorem clampRange_end_zero (len start : Int) (hlen : 0 ≤ len) :
    clampRange len start 0 = (0, 0) := by
  have h1 : ¬ (0 : Int) > len := by omega
  simp only [clampRange, if_neg h1]
  by_cases h : start > 0
  · rw [if_pos h]
    rfl
  · rw [if_neg h]
    by_cases h3 : start < 0
    · rw [if_pos h3]
    · rw [if_neg h3]
      have : start = 0 := by omega
      rw [this]

theorem GetRangeLines_inverted (lines : List String) (start e : Int) (sep : String)
    (f : Option (String → Option String)) (hs : e < start) (he : 0 < e)
    (heL : e ≤ (lines.length : Int)) :
    GetRangeLines lines start e sep f = GetRangeLines lines (e - 1) e sep f := by
  have hc : clampRange (lines.length : Int) start e = clampRange (lines.length : Int) (e - 1) e := by
    rw [clampRange_inverted _ _ _ hs (by omega) heL,
      clampRange_of_valid _ _ _ (by omega) (by omega) heL, max_eq_right (by omega)]
  unfold GetRangeLines
  rw [hc]

theorem GetRangeLines_end_zero (lines : List String) (start : Int) (sep : String)
    (f : Option (String → Option String)) :
    GetRangeLines lines start 0 sep f = some "" := by
  unfold GetRangeLines
  rw [clampRange_end_zero _ _ (Int.natCast_nonneg _),
    goSlice_of_bounds lines 0 0 (le_refl _) (le_refl _) (Int.natCast_nonneg _)]
  simp

/-- Claim C1, amended: for a single source of `L` lines whose records `recs`
(listed by increasing `Line` and `Time`, every `Line` in `[0, L)`) arrive in any
order, and a skip-column count `≥ 0`: the sort step puts the records in the
reverse order, newest first; the content loop then runs through without a
panic; a record followed in the sorted list by a record of line `e` is rendered
from exactly the clamped range `[max(0, e - 1), e)`, so its `Content` is the
transform of the line `e - 1`, or empty when `e = 0`; and the record that ends
the sorted list is rendered from exactly `[Line, Line + 1)`, its `Content` the
transform of its own line. -/
theorem single_source_order_and_ranges (next : Nat → Nat) (lines : List String)
    (lineMap : String → List String) (skipColumn : Int) (recs arrived : List LogRecord)
    (hline : recs.Pairwise (fun a b => a.Line < b.Line))
    (htime : recs.Pairwise (fun a b => a.Time < b.Time))
    (hsrc : ∀ r ∈ recs, 0 ≤ r.Line ∧ r.Line < (lines.length : Int) ∧ lineMap r.File = lines)
    (harr : arrived.Perm recs) (hskip : 0 ≤ skipColumn) :
    sortLogs next arrived = recs.reverse ∧
    ∃ out, contentLoop lineMap skipColumn (sortLogs next arrived) = some out ∧
      out.length = recs.length ∧
      (∀ (i : Nat) (log following : LogRecord), (sortLogs next arrived)[i]? = some log →
        (sortLogs next arrived)[i + 1]? = some following →
        contentRange lineMap (sortLogs next arrived) i log =
          (max 0 (following.Line - 1), following.Line) ∧
        (following.Line = 0 → out[i]? = some { log with Content := "" }) ∧
        (∀ line, 0 < following.Line → lines[(following.Line - 1).toNat]? = some line →
          out[i]? =
            (skipColumns skipColumn line).map (fun content => { log with Content := content }))) ∧
      (∀ (i : Nat) (log : LogRecord), (sortLogs next arrived)[i]? = some log →
        (sortLogs next arrived)[i + 1]? = none →
        contentRange lineMap (sortLogs next arrived) i log = (log.Line, log.Line + 1) ∧
        ∃ line, lines[log.Line.toNat]? = some line ∧
          out[i]? =
            (skipColumns skipColumn line).map (fun content => { log with Content := content })) := by
  have hsort := sortLogs_eq_reverse next recs arrived htime harr
  refine ⟨hsort, ?_⟩
  rw [hsort]
  have hlines : ∀ r ∈ recs.reverse, 0 ≤ r.Line := fun r hr =>
    (hsrc r (List.mem_reverse.mp hr)).1
  have hrev : recs.reverse.Pairwise (fun a b => b.Line < a.Line) :=
    List.pairwise_reverse.mpr hline
  obtain ⟨out, hout⟩ := contentLoop_isSome lineMap skipColumn recs.reverse hskip hlines
  obtain ⟨hlen, hget⟩ := contentLoopFrom_get lineMap skipColumn recs.reverse recs.reverse 0 out hout
  have hrender : ∀ (i : Nat) (log : LogRecord), recs.reverse[i]? = some log →
      out[i]? = (GetRangeLines (lineMap log.File) log.Line (contentEnd recs.reverse i log) " "
        (some (skipColumns skipColumn))).map (fun content => { log with Content := content }) := by
    intro i log hi
    obtain ⟨hil, hie⟩ := List.getElem?_eq_some.mp hi
    have := hget i hil
    rw [Nat.zero_add, renderContent_eq_map] at this
    have hg : recs.reverse.get ⟨i, hil⟩ = log := hie
    rw [hg] at this
    exact this
  refine ⟨out, hout, by simpa using hlen, ?_, ?_⟩
  · intro i log following hi hn
    obtain ⟨hil, hie⟩ := List.getElem?_eq_some.mp hi
    obtain ⟨hnl, hne⟩ := List.getElem?_eq_some.mp hn
    have hlt : following.Line < log.Line := by
      have := List.pairwise_iff_getElem.mp hrev i (i + 1) hil hnl (by omega)
      rwa [hie, hne] at this
    obtain ⟨_, hlogL, hmap⟩ := hsrc log (List.mem_reverse.mp (List.getElem?_mem hi))
    obtain ⟨hf0, hfL, _⟩ := hsrc following (List.mem_reverse.mp (List.getElem?_mem hn))
    have hend : contentEnd recs.reverse i log = following.Line := by
      unfold contentEnd
      rw [dif_pos hnl, hne]
    have hr := hrender i log hi
    rw [hend, hmap] at hr
    refine ⟨?_, ?_, ?_⟩
    · unfold contentRange
      rw [hend, hmap]
      exact clampRange_inverted _ _ _ hlt hf0 (by omega)
    · intro hz
      rw [hr, hz, GetRangeLines_end_zero]
      rfl
    · intro line hpos hline1
      obtain ⟨hsl, hse⟩ := List.getElem?_eq_some.mp hline1
      rw [hr, GetRangeLines_inverted lines log.Line following.Line " " _ hlt hpos (by omega)]
      have hone := GetRangeLines_one_line lines (following.Line - 1).toNat " "
        (skipColumns skipColumn) hsl
      have hc1 : (((following.Line - 1).toNat : Nat) : Int) = following.Line - 1 := by omega
      have hc2 : following.Line - 1 + 1 = following.Line := by omega
      rw [hc1, hc2] at hone
      rw [hone, hse]
  · intro i log hi hn
    obtain ⟨hil, hie⟩ := List.getElem?_eq_some.mp hi
    have hnl : ¬ i + 1 < recs.reverse.length := by
      intro h
      rw [List.getElem?_eq_getElem h] at hn
      exact absurd hn (by simp)
    obtain ⟨h0, h1, hmap⟩ := hsrc log (List.mem_reverse.mp (List.getElem?_mem hi))
    have hend : contentEnd recs.reverse i log = log.Line + 1 := by
      unfold contentEnd
      rw [dif_neg hnl]
    have hr := hrender i log hi
    rw [hend, hmap] at hr
    constructor
    · unfold contentRange
      rw [hend, hmap]
      exact clampRange_of_valid _ _ _ h0 (by omega) (by omega)
    · have hs : log.Line.toNat < lines.length := by omega
      refine ⟨lines[log.Line.toNat], List.getElem?_eq_getElem hs, ?_⟩
      have hone := GetRangeLines_one_line lines log.Line.toNat " " (skipColumns skipColumn) hs
      have hcast : ((log.Line.toNat : Nat) : Int) = log.Line := by omega
      rw [hcast] at hone
      rw [hr, hone]

theorem single_source_order_and_ranges_witness :
    sortLogs exampleNext
        [⟨200, "", "app.log", 12⟩, ⟨300, "", "app.log", 20⟩, ⟨100, "", "app.log", 5⟩] =
      [⟨300, "", "app.log", 20⟩, ⟨200, "", "app.log", 12⟩, ⟨100, "", "app.log", 5⟩] ∧
    contentRange (fun _ => exampleLines)
      [⟨300, "", "app.log", 20⟩, ⟨200, "", "app.log", 12⟩, ⟨100, "", "app.log", 5⟩]
      0 ⟨300, "", "app.log", 20⟩ = (11, 12) ∧
    contentRange (fun _ => exampleLines)
      [⟨300, "", "app.log", 20⟩, ⟨200, "", "app.log", 12⟩, ⟨100, "", "app.log", 5⟩]
      2 ⟨100, "", "app.log", 5⟩ = (5, 6) := by
  obtain ⟨hsort, _, _, _, hmid, hlast⟩ := single_source_order_and_ranges exampleNext exampleLines
    (fun _ => exampleLines) 0 exampleRecords
    [⟨200, "", "app.log", 12⟩, ⟨300, "", "app.log", 20⟩, ⟨100, "", "app.log", 5⟩]
    (by decide) (by decide) (by decide) (by decide) (by decide)
  rw [hsort] at hmid hlast
  exact ⟨hsort, (hmid 0 ⟨300, "", "app.log", 20⟩ ⟨200, "", "app.log", 12⟩ rfl rfl).1,
    (hlast 2 ⟨100, "", "app.log", 5⟩ rfl rfl).1⟩

/-- Claim C1 fails on its own scenario: with timestamps detected at the lines 5, 12
and 20 of a 30-line source the sorted order is (20, 12, 5), whatever the
library's generator is, and the content loop renders the three records from the
ranges `[11, 12)`, `[4, 5)` and `[5, 6)`, not from `[20, 30)`, `[12, 20)` and
`[5, 12)`. -/
theorem single_source_ranges_do_not_partition :
    exampleLines.length = 30 ∧
    (∀ next : Nat → Nat, sortLogs next exampleRecords =
      [⟨300, "", "app.log", 20⟩, ⟨200, "", "app.log", 12⟩, ⟨100, "", "app.log", 5⟩]) ∧
    contentRange (fun _ => exampleLines)
      [⟨300, "", "app.log", 20⟩, ⟨200, "", "app.log", 12⟩, ⟨100, "", "app.log", 5⟩]
      0 ⟨300, "", "app.log", 20⟩ = (11, 12) ∧
    contentRange (fun _ => exampleLines)
      [⟨300, "", "app.log", 20⟩, ⟨200, "", "app.log", 12⟩, ⟨100, "", "app.log", 5⟩]
      0 ⟨300, "", "app.log", 20⟩ ≠ (20, 30) ∧
    contentRange (fun _ => exampleLines)
      [⟨300, "", "app.log", 20⟩, ⟨200, "", "app.log", 12⟩, ⟨100, "", "app.log", 5⟩]
      1 ⟨200, "", "app.log", 12⟩ = (4, 5) ∧
    contentRange (fun _ => exampleLines)
      [⟨300, "", "app.log", 20⟩, ⟨200, "", "app.log", 12⟩, ⟨100, "", "app.log", 5⟩]
      2 ⟨100, "", "app.log", 5⟩ = (5, 6) ∧
    contentLoop (fun _ => exampleLines) 0
      [⟨300, "", "app.log", 20⟩, ⟨200, "", "app.log", 12⟩, ⟨100, "", "app.log", 5⟩] =
      some [⟨300, "l11", "app.log", 20⟩, ⟨200, "l4", "app.log", 12⟩,
        ⟨100, "l5", "app.log", 5⟩] := by
  refine ⟨by decide, ?_, by decide, by decide, by decide, by decide, by decide⟩
  intro next
  unfold sortLogs
  rw [sortSlice_short _ _ _ (by decide)]
  decide

end FzfLog
